import Mathlib

/-!
Verification development for the kg item-catalogue / recipe-ontology project.

The data model and operations are shallowly embedded from the Python source:
 * `src/kg/queries/full_recipe.py`   (`get_full_recipe`)
 * `src/kg/queries/crafts_into.py`   (`get_full_recipe_with_subitems`,
   `get_full_recipe_cached`, `build_all_recipes_with_subitems`)
 * `src/kg/scraper/dota/utils.py`    (`set_orders`, `set_distinct_recipes`,
   `remove_distinct_recipes`)
 * `src/kg/parse.py`                 (`build_dota_item`)
 * `src/src/utils.py`                (`normalize_name`)

The RDF triple store (rdflib `Graph` held by `DotaOntoBuilder`, whose module is
not part of the sources) is modelled from the spec, section 4.1: a store of
(subject, predicate, object) triples with `objects(subject, predicate)` and
`subjects(predicate, object)` lookups.  Python recursion is modelled with an
explicit fuel parameter; `none` means the fuel ran out.  Python dictionaries
are modelled as insertion-ordered association lists with unique keys, where
assignment updates in place or appends.
-/

/-- A node of the RDF graph: a `URIRef` or an integer `Literal`.  (The only
literals the recipe queries ever inspect are the integer `quantity` literals;
string literals such as `name`/`imageUrl`/`wikiUrl` values never occur as
subjects of the predicates traversed here and are not represented.) -/
inductive Node where
  | uri (s : String)
  | lit (n : Int)
deriving DecidableEq, Repr

abbrev Triple := Node × Node × Node

abbrev RGraph := List Triple

/-- Modelled from the spec: GraphStore lookup `objects(subject, predicate)`. -/
def objectsSP (g : RGraph) (s p : Node) : List Node :=
  (g.filter (fun t => t.1 = s ∧ t.2.1 = p)).map (fun t => t.2.2)

/-- Modelled from the spec: GraphStore lookup `subjects(predicate, object)`. -/
def subjectsPO (g : RGraph) (p o : Node) : List Node :=
  (g.filter (fun t => t.2.1 = p ∧ t.2.2 = o)).map (fun t => t.1)

/-- The ontology namespace base of `src/kg/parse.py`. -/
def BASE : String := "http://www.semanticweb.org/lavrent/ontologies/2025/9/kg-dota#"

/-- `KG[name]`: a URI in the ontology namespace. -/
def KGuri (name : String) : Node := Node.uri (BASE ++ name)

def hasBuildSchemaP : Node := KGuri "hasBuildSchema"
def hasSlotP : Node := KGuri "hasSlot"
def hasItemP : Node := KGuri "hasItem"
def quantityP : Node := KGuri "quantity"
def costP : Node := KGuri "cost"
def rdfTypeP : Node := Node.uri "http://www.w3.org/1999/02/22-rdf-syntax-ns#type"

/-- Everything after the first hash character, if any. -/
def afterHash : List Char → Option (List Char)
  | [] => none
  | c :: rest => if c = '#' then some rest else afterHash rest

/-- `get_name_from_uri`: `uri.split("#", 1)[-1]` of `full_recipe.py` /
`crafts_into.py` — the part of the URI after the first `#`, or the whole
string when there is no `#`.  (On the integer literals it is never called;
their decimal rendering stands in for Python `str`.) -/
def get_name_from_uri : Node → String
  | Node.uri s =>
      match afterHash s.data with
      | some r => String.mk r
      | none => s
  | Node.lit n => toString n

/-- Leaf-count mappings `Dict[str, int]`: insertion-ordered association
lists.  `defaultdict(int)` update `m[k] += v` either bumps the existing entry
in place or appends `(k, v)`. -/
abbrev RMap := List (String × Int)

def addTo : RMap → String → Int → RMap
  | [], k, v => [(k, v)]
  | (k0, v0) :: rest, k, v =>
      if k0 = k then (k0, v0 + v) :: rest else (k0, v0) :: addTo rest k v

/-- `for name, count in sub.items(): recipe[name] += count * qty` -/
def mergeScaled (acc : RMap) (sub : RMap) (qty : Int) : RMap :=
  sub.foldl (fun a p => addTo a p.1 (p.2 * qty)) acc

/-- `for name, count in sub.items(): recipe[name] += count` -/
def merge1 (acc : RMap) (sub : RMap) : RMap :=
  sub.foldl (fun a p => addTo a p.1 p.2) acc

/-- The first `quantity` object if it is an integer literal, else 1
(`int(qty_objs[0]) if qty_objs and isinstance(qty_objs[0], Literal) else 1`). -/
def qtyOf (g : RGraph) (slot : Node) : Int :=
  match objectsSP g slot quantityP with
  | Node.lit n :: _ => n
  | _ => 1

/-- The slot loop of `get_full_recipe`, parameterised by the recursive call
`f` (the same function at one unit less fuel).  The `visited` set is a Python
set object mutated across the recursion, so it is threaded through and
returned. -/
def gfrSlots (g : RGraph) (f : Node → List Node → Option (RMap × List Node)) :
    List Node → RMap → List Node → Option (RMap × List Node)
  | [], acc, vis => some (acc, vis)
  | slot :: rest, acc, vis =>
    match slot with
    | Node.lit _ => gfrSlots g f rest acc vis
    | Node.uri _ =>
      match objectsSP g slot hasItemP with
      | slotItem :: _ =>
        match slotItem with
        | Node.lit _ => gfrSlots g f rest acc vis
        | Node.uri _ =>
          match f slotItem vis with
          | none => none
          | some (sub, vis2) =>
            let acc2 := if sub = [] then addTo acc (get_name_from_uri slotItem) (qtyOf g slot)
                        else mergeScaled acc sub (qtyOf g slot)
            gfrSlots g f rest acc2 vis2
      | [] =>
        match f slot vis with
        | none => none
        | some (sub, vis2) =>
          let acc2 := if sub = [] then addTo acc (get_name_from_uri slot) 1
                      else merge1 acc sub
          gfrSlots g f rest acc2 vis2

/-- `get_full_recipe` of `src/kg/queries/full_recipe.py`, with explicit fuel
for the Python call stack (`none` = fuel ran out) and the mutable `visited`
set threaded through and returned. -/
def get_full_recipe (g : RGraph) : Nat → Node → List Node → Option (RMap × List Node)
  | 0, _, _ => none
  | fuel + 1, item, visited =>
    if item ∈ visited then some ([], visited)
    else
      let visited1 := visited ++ [item]
      match objectsSP g item hasBuildSchemaP with
      | [] => some ([], visited1)
      | schema :: _ =>
          gfrSlots g (get_full_recipe g fuel) (objectsSP g schema hasSlotP) [] visited1

/-- A small builder-shaped graph: item A with recipe B, B, C; B and C leaves.
Triple order follows `build_dota_item`. -/
def Gabc : RGraph :=
  [ (KGuri "A", rdfTypeP, KGuri "DotaItem"),
    (KGuri "A", costP, Node.lit 1000),
    (KGuri "A_BS", rdfTypeP, KGuri "BuildSchema"),
    (KGuri "A", hasBuildSchemaP, KGuri "A_BS"),
    (KGuri "B_2x", rdfTypeP, KGuri "BuildSchemaSlot"),
    (KGuri "B_2x", hasItemP, KGuri "B"),
    (KGuri "B_2x", quantityP, Node.lit 2),
    (KGuri "A_BS", hasSlotP, KGuri "B_2x"),
    (KGuri "A_BS", hasSlotP, KGuri "C"),
    (KGuri "B", rdfTypeP, KGuri "DotaItem"),
    (KGuri "B", costP, Node.lit 300),
    (KGuri "C", rdfTypeP, KGuri "DotaItem"),
    (KGuri "C", costP, Node.lit 400) ]

/-- Python-set insertion: `s.add(x)`. -/
def sadd (s : List String) (x : String) : List String :=
  if x ∈ s then s else s ++ [x]

/-- Python-set union update: `s.update(t)`. -/
def sunion (s : List String) (t : List String) : List String :=
  t.foldl sadd s

/-- The slot loop of `get_full_recipe_with_subitems`, parameterised by the
recursive call `f`. -/
def wsSlots (g : RGraph)
    (f : Node → List Node → Option ((RMap × List String) × List Node)) :
    List Node → RMap → List String → List Node →
      Option ((RMap × List String) × List Node)
  | [], acc, subs, vis => some ((acc, subs), vis)
  | slot :: rest, acc, subs, vis =>
    match slot with
    | Node.lit _ => wsSlots g f rest acc subs vis
    | Node.uri _ =>
      match objectsSP g slot hasItemP with
      | slotItem :: _ =>
        match slotItem with
        | Node.lit _ => wsSlots g f rest acc subs vis
        | Node.uri _ =>
          match f slotItem vis with
          | none => none
          | some ((subL, subS), vis2) =>
            let acc2 := mergeScaled acc subL (qtyOf g slot)
            let subs2 := sunion (sadd subs (get_name_from_uri slotItem)) subS
            wsSlots g f rest acc2 subs2 vis2
      | [] =>
        match f slot vis with
        | none => none
        | some ((subL, subS), vis2) =>
          let acc2 := merge1 acc subL
          let subs2 := sunion (sadd subs (get_name_from_uri slot)) subS
          wsSlots g f rest acc2 subs2 vis2

/-- `get_full_recipe_with_subitems` of `src/kg/queries/crafts_into.py`:
returns the leaf-count mapping and the set of sub-items touched; fuel and the
mutable `visited` set as in `get_full_recipe`. -/
def get_full_recipe_with_subitems (g : RGraph) :
    Nat → Node → List Node → Option ((RMap × List String) × List Node)
  | 0, _, _ => none
  | fuel + 1, item, visited =>
    if item ∈ visited then some (([], []), visited)
    else
      let visited1 := visited ++ [item]
      match objectsSP g item hasBuildSchemaP with
      | [] => some (([(get_name_from_uri item, 1)], []), visited1)
      | schema :: _ =>
          wsSlots g (get_full_recipe_with_subitems g fuel)
            (objectsSP g schema hasSlotP) [] [] visited1

abbrev WsCache := List (Node × (RMap × List String))

/-- `get_full_recipe_cached` of `crafts_into.py`: consult the per-batch cache,
otherwise run a fresh `get_full_recipe_with_subitems` (fresh `visited`) and
record the result. -/
def get_full_recipe_cached (g : RGraph) (fuel : Nat) (item : Node)
    (cache : WsCache) : Option ((RMap × List String) × WsCache) :=
  match cache.lookup item with
  | some r => some (r, cache)
  | none =>
    match get_full_recipe_with_subitems g fuel item [] with
    | none => none
    | some (r, _) => some (r, cache ++ [(item, r)])

/-- `all_recipes` dictionaries: item name → (leaf counts, sub-items). -/
abbrev AllRec := List (String × (RMap × List String))

/-- Python-dict assignment `d[k] = v`: update in place or append. -/
def arInsert : AllRec → String → (RMap × List String) → AllRec
  | [], k, v => [(k, v)]
  | (k0, v0) :: rest, k, v =>
      if k0 = k then (k0, v) :: rest else (k0, v0) :: arInsert rest k v

/-- The subject loop of `build_all_recipes_with_subitems`, threading the
shared cache. -/
def buildAllGo (g : RGraph) (fuel : Nat) :
    List Node → WsCache → AllRec → Option AllRec
  | [], _, acc => some acc
  | s :: rest, cache, acc =>
    match s with
    | Node.lit _ => buildAllGo g fuel rest cache acc
    | Node.uri _ =>
      match get_full_recipe_cached g fuel s cache with
      | none => none
      | some (r, cache2) =>
          buildAllGo g fuel rest cache2 (arInsert acc (get_name_from_uri s) r)

/-- `build_all_recipes_with_subitems` of `crafts_into.py`. -/
def build_all_recipes_with_subitems (g : RGraph) (fuel : Nat) : Option AllRec :=
  buildAllGo g fuel (subjectsPO g rdfTypeP (KGuri "DotaItem")) [] []

/-- The nodes the slot loop recurses into, in order: for a URIRef slot, the
first `hasItem` object when present (if it is a URIRef; skipped otherwise),
otherwise the slot itself; non-URIRef slots are skipped. -/
def slotChild (g : RGraph) (slot : Node) : Option Node :=
  match slot with
  | Node.lit _ => none
  | Node.uri _ =>
    match objectsSP g slot hasItemP with
    | slotItem :: _ =>
      match slotItem with
      | Node.lit _ => none
      | Node.uri _ => some slotItem
    | [] => some slot

/-- List of nodes visited by the pure (fresh-recursion) unfolding of an
item's recipe tree, in pre-order and with multiplicity; parameterised slot
part. -/
def touchSlots (g : RGraph) (f : Node → Option (List Node)) :
    List Node → Option (List Node)
  | [] => some []
  | slot :: rest =>
    match slotChild g slot with
    | none => touchSlots g f rest
    | some child =>
      match f child with
      | none => none
      | some l1 =>
        match touchSlots g f rest with
        | none => none
        | some l2 => some (l1 ++ l2)

/-- List of nodes visited by the pure unfolding of an item's recipe tree. -/
def touch (g : RGraph) : Nat → Node → Option (List Node)
  | 0, _ => none
  | fuel + 1, item =>
    match objectsSP g item hasBuildSchemaP with
    | [] => some [item]
    | schema :: _ =>
      match touchSlots g (touch g fuel) (objectsSP g schema hasSlotP) with
      | none => none
      | some l => some (item :: l)

/-- Reference flattening, following the spec (section 4.4 and claim C1):
recursively flatten each slot's item with a *fresh* recursion (no shared
visited state), merge a non-empty result scaled by the slot's quantity, and
credit a slot whose recursion yields an empty mapping by its own item name at
that quantity; an item with no build schema yields the empty mapping.  Slot
decoding (quantity lookup, malformed-edge skipping) is as in the code. -/
def refSlots (g : RGraph) (f : Node → Option RMap) :
    List Node → RMap → Option RMap
  | [], acc => some acc
  | slot :: rest, acc =>
    match slot with
    | Node.lit _ => refSlots g f rest acc
    | Node.uri _ =>
      match objectsSP g slot hasItemP with
      | slotItem :: _ =>
        match slotItem with
        | Node.lit _ => refSlots g f rest acc
        | Node.uri _ =>
          match f slotItem with
          | none => none
          | some sub =>
            let acc2 := if sub = [] then addTo acc (get_name_from_uri slotItem) (qtyOf g slot)
                        else mergeScaled acc sub (qtyOf g slot)
            refSlots g f rest acc2
      | [] =>
        match f slot with
        | none => none
        | some sub =>
          let acc2 := if sub = [] then addTo acc (get_name_from_uri slot) 1
                      else merge1 acc sub
          refSlots g f rest acc2

/-- Reference flattening (see `refSlots`). -/
def refFlatten (g : RGraph) : Nat → Node → Option RMap
  | 0, _ => none
  | fuel + 1, item =>
    match objectsSP g item hasBuildSchemaP with
    | [] => some []
    | schema :: _ => refSlots g (refFlatten g fuel) (objectsSP g schema hasSlotP) []

/-- The recipe dependency relation: the slot children an item's resolver
walks into (empty when the item has no build schema). -/
def childrenOf (g : RGraph) (n : Node) : List Node :=
  match objectsSP g n hasBuildSchemaP with
  | [] => []
  | schema :: _ => (objectsSP g schema hasSlotP).filterMap (slotChild g)

/-- One saturation step of forward reachability. -/
def expandOnce (g : RGraph) (s : List Node) : List Node :=
  s.foldl (fun a n => a ++ ((childrenOf g n).filter (fun c => c ∉ a))) s

def iterExpand (g : RGraph) : Nat → List Node → List Node
  | 0, s => s
  | k + 1, s => iterExpand g k (expandOnce g s)

/-- Nodes reachable from `n` through at least one dependency step. -/
def reachFrom (g : RGraph) (k : Nat) (n : Node) : List Node :=
  iterExpand g k (childrenOf g n)

def nodesOfG (g : RGraph) : List Node :=
  g.foldr (fun t a => t.1 :: t.2.2 :: a) []

/-- The recipe dependency relation of the graph has no cycle: no node is
reachable from itself in one or more steps. -/
def AcyclicG (g : RGraph) : Prop :=
  ∀ n ∈ nodesOfG g, n ∉ reachFrom g (nodesOfG g).length n

instance (g : RGraph) : Decidable (AcyclicG g) := by
  unfold AcyclicG; infer_instance

/-- An acyclic diamond: A's slots are B and C, B and C each contain D, and D
contains the leaf E.  The interior node D is shared between two branches. -/
def Gdia : RGraph :=
  [ (KGuri "A", rdfTypeP, KGuri "DotaItem"),
    (KGuri "A", hasBuildSchemaP, KGuri "A_BS"),
    (KGuri "A_BS", hasSlotP, KGuri "B"),
    (KGuri "A_BS", hasSlotP, KGuri "C"),
    (KGuri "B", hasBuildSchemaP, KGuri "B_BS"),
    (KGuri "B_BS", hasSlotP, KGuri "D"),
    (KGuri "C", hasBuildSchemaP, KGuri "C_BS"),
    (KGuri "C_BS", hasSlotP, KGuri "D"),
    (KGuri "D", hasBuildSchemaP, KGuri "D_BS"),
    (KGuri "D_BS", hasSlotP, KGuri "E") ]

/-- A one-node cycle: A's schema has a slot that is A itself. -/
def Gcyc : RGraph :=
  [ (KGuri "A", rdfTypeP, KGuri "DotaItem"),
    (KGuri "A", hasBuildSchemaP, KGuri "A_BS"),
    (KGuri "A_BS", hasSlotP, KGuri "A") ]

/-- Two DotaItems in different namespaces sharing the local name `A`: the
first has a build schema over the leaf B, the second is a leaf. -/
def Gdup : RGraph :=
  [ (KGuri "A", rdfTypeP, KGuri "DotaItem"),
    (Node.uri "zz#A", rdfTypeP, KGuri "DotaItem"),
    (KGuri "A", hasBuildSchemaP, KGuri "A_BS"),
    (KGuri "A_BS", hasSlotP, KGuri "B") ]

/-- All objects of the graph's triples: every node the slot loops can recurse
into is among them. -/
def objsList (g : RGraph) : List Node := g.map (fun t => t.2.2)

/-- Number of graph objects not yet visited: the termination measure. -/
def unseen (g : RGraph) (vis : List Node) : Nat :=
  ((objsList g).dedup.filter (fun x => decide (x ∉ vis))).length

/-- `isinstance(node, URIRef)` -/
def isUriNode : Node → Bool
  | Node.uri _ => true
  | Node.lit _ => false

/-- A node has a productive schema when it is either a leaf or its schema has
at least one slot the resolver recurses into. -/
def productiveAt (g : RGraph) (n : Node) : Bool :=
  match objectsSP g n hasBuildSchemaP with
  | [] => true
  | schema :: _ => (objectsSP g schema hasSlotP).any (fun slot => (slotChild g slot).isSome)

/-- Python `s.lower()` (ASCII names only in this catalogue). -/
def pyLower (s : String) : String := String.mk (s.data.map Char.toLower)

/-- Python `"recipe" in name.lower()`. -/
def containsRecipeCI (name : String) : Bool :=
  decide ("recipe".data <:+: (pyLower name).data)

/-- Python `s.endswith(suffix)`. -/
def pyEndsWith (s suffix : String) : Bool := suffix.data.isSuffixOf s.data

/-- `normalize_name` of `src/src/utils.py`:
`name.replace(" ", "_").replace(chr(39), "")` — spaces to underscores, then
apostrophes (codepoint 39) removed. -/
def normalize_name (s : String) : String :=
  String.mk ((s.data.map (fun c => if c = ' ' then '_' else c)).filter
    (fun c => c ≠ Char.ofNat 39))

/-- `DotaItem` of `src/kg/scraper/dota/types.py`, restricted to the fields
the transforms below read or write; `buffs`, `abilities` and the generic-item
fields not consulted by them are omitted.  `order` is `Optional[int]` in the
source, populated by `set_orders` before any catalogue is sorted; it is
modelled as `Int` because Python's `sorted` raises `TypeError` on catalogues
mixing set and unset orders. -/
structure DotaItem where
  name : String
  image : String
  url : String
  cost : Int
  recipe : List String
  order : Int
deriving DecidableEq, Repr

/-- `Dict[str, DotaItem]`: insertion-ordered association list, unique keys. -/
abbrev Catalogue := List (String × DotaItem)

/-- Python-dict assignment `d[k] = v`: update in place or append. -/
def dinsert : Catalogue → String → DotaItem → Catalogue
  | [], k, v => [(k, v)]
  | (k0, v0) :: rest, k, v =>
      if k0 = k then (k0, v) :: rest else (k0, v0) :: dinsert rest k v

def dkeys (d : Catalogue) : List String := d.map Prod.fst

/-- Python string comparison (lexicographic by code point). -/
def strLe : List Char → List Char → Bool
  | [], _ => true
  | _ :: _, [] => false
  | c1 :: r1, c2 :: r2 =>
    if c1.toNat < c2.toNat then true
    else if c2.toNat < c1.toNat then false
    else strLe r1 r2

/-- `key=lambda x: (x[1].order, x[0])` under Python tuple comparison. -/
def pairLe (a b : String × DotaItem) : Bool :=
  a.2.order < b.2.order ∨ (a.2.order = b.2.order ∧ strLe a.1.data b.1.data = true)

def sortInsert (x : String × DotaItem) : Catalogue → Catalogue
  | [] => [x]
  | y :: ys => if pairLe x y then x :: y :: ys else y :: sortInsert x ys

/-- `sorted(items.items(), key=lambda x: (x[1].order, x[0]))`: stable
insertion sort. -/
def sortCat : Catalogue → Catalogue
  | [] => []
  | x :: xs => sortInsert x (sortCat xs)

/-- `sum(items[r].cost for r in comps)`; `none` models the `KeyError` raised
when a component is not a key of the catalogue. -/
def sumCosts (orig : Catalogue) : List String → Option Int
  | [] => some 0
  | c :: rest =>
    match orig.lookup c with
    | none => none
    | some it =>
      match sumCosts orig rest with
      | none => none
      | some s => some (it.cost + s)

def recipeImageUrl : String := "https://dota2.ru/img/items/recipe.jpg"

/-- The loop of `set_distinct_recipes` over the sorted catalogue, building
the `ans` dict.  The generated recipe node's `order` field defaults to `None`
in the source and is never read afterwards; it is modelled as 0. -/
def expandGo (orig : Catalogue) : List (String × DotaItem) → Catalogue → Option Catalogue
  | [], ans => some ans
  | (name, it) :: rest, ans =>
    if containsRecipeCI name then expandGo orig rest ans
    else if it.recipe ≠ [] ∧ it.recipe.any containsRecipeCI = true then
      let rname := name ++ " Recipe"
      let newRecipe := it.recipe.map (fun r => if r = "Recipe" then rname else r)
      match sumCosts orig (newRecipe.filter (fun r => r ≠ rname)) with
      | none => none
      | some s =>
        expandGo orig rest
          (dinsert (dinsert ans rname
            { name := rname, image := recipeImageUrl, url := it.url,
              cost := it.cost - s, recipe := [], order := 0 })
            name { it with recipe := newRecipe })
    else expandGo orig rest (dinsert ans name it)

/-- `set_distinct_recipes` of `src/kg/scraper/dota/utils.py` (Expand). -/
def set_distinct_recipes (items : Catalogue) : Option Catalogue :=
  expandGo items (sortCat items) []

/-- The per-item recipe rewrite of `remove_distinct_recipes`: components
ending in "Recipe" become the generic placeholder (only when the recipe is
non-empty, as in the source). -/
def collapseItem (it : DotaItem) : DotaItem :=
  if it.recipe ≠ [] then
    { it with recipe :=
        it.recipe.map (fun r => if pyEndsWith r "Recipe" then "Recipe" else r) }
  else it

/-- The loop of `remove_distinct_recipes`. -/
def collapseGo : List (String × DotaItem) → Catalogue → Catalogue
  | [], ans => ans
  | (name, it) :: rest, ans =>
    if containsRecipeCI name then collapseGo rest ans
    else collapseGo rest (dinsert ans name (collapseItem it))

/-- `remove_distinct_recipes` of `src/kg/scraper/dota/utils.py` (Collapse). -/
def remove_distinct_recipes (items : Catalogue) : Catalogue := collapseGo items []

abbrev OrderMemo := List (String × Int)

/-- Python-dict assignment on the `orders` memo. -/
def minsert : OrderMemo → String → Int → OrderMemo
  | [], k, v => [(k, v)]
  | (k0, v0) :: rest, k, v =>
      if k0 = k then (k0, v) :: rest else (k0, v0) :: minsert rest k v

/-- `max(list, default=0)`. -/
def maxD : List Int → Int
  | [] => 0
  | x :: xs => xs.foldl max x

/-- The memoised list comprehension `[get_order(i) for i in recipe]`,
threading the shared `orders` memo. -/
def getOrderList (f : String → OrderMemo → Option (Int × OrderMemo)) :
    List String → OrderMemo → Option (List Int × OrderMemo)
  | [], memo => some ([], memo)
  | c :: rest, memo =>
    match f c memo with
    | none => none
    | some (v, memo1) =>
      match getOrderList f rest memo1 with
      | none => none
      | some (vs, memo2) => some (v :: vs, memo2)

/-- The `get_order` closure of `set_orders` (`src/kg/scraper/dota/utils.py`),
with fuel for the unguarded Python recursion and the `orders` memo threaded;
`none` is fuel exhaustion or the `KeyError` on a component that is neither a
"Recipe" name nor a catalogue key. -/
def get_order (items : Catalogue) : Nat → String → OrderMemo → Option (Int × OrderMemo)
  | 0, _, _ => none
  | fuel + 1, name, memo =>
    if pyEndsWith name "Recipe" then some (0, memo)
    else
      match memo.lookup name with
      | some v => some (v, memo)
      | none =>
        match items.lookup name with
        | none => none
        | some it =>
          match getOrderList (get_order items fuel) it.recipe memo with
          | none => none
          | some (vs, memo2) =>
            some (maxD vs + 1, minsert memo2 name (maxD vs + 1))

/-- The loop of `set_orders`: `for name, item in ans.items(): item.order =
get_order(name)`. -/
def setOrdersGo (items : Catalogue) (fuel : Nat) :
    List (String × DotaItem) → OrderMemo → Option Catalogue
  | [], _ => some []
  | (name, it) :: rest, memo =>
    match get_order items fuel name memo with
    | none => none
    | some (v, memo2) =>
      match setOrdersGo items fuel rest memo2 with
      | none => none
      | some tailAns => some ((name, { it with order := v }) :: tailAns)

/-- `set_orders` of `src/kg/scraper/dota/utils.py`. -/
def set_orders (items : Catalogue) (fuel : Nat) : Option Catalogue :=
  setOrdersGo items fuel items []

def specOrderList (f : String → Option Int) : List String → Option (List Int)
  | [] => some []
  | c :: rest =>
    match f c with
    | none => none
    | some v =>
      match specOrderList f rest with
      | none => none
      | some vs => some (v :: vs)

/-- The spec's recursive order definition (spec section 3 and claim C6), pure
and memo-free: a name ending in "Recipe" has order 0 and is not recursed
into; otherwise an item's order is `1 + max` of its components' orders, with
`max` defaulting to 0 on an empty recipe. -/
def specOrder (items : Catalogue) : Nat → String → Option Int
  | 0, _ => none
  | fuel + 1, name =>
    if pyEndsWith name "Recipe" then some 0
    else
      match items.lookup name with
      | none => none
      | some it =>
        match specOrderList (specOrder items fuel) it.recipe with
        | none => none
        | some vs => some (maxD vs + 1)

/-- The slot-building loop of `build_dota_item` (`src/kg/parse.py`): iterate
the recipe, dedup by the `used` set of normalised names, count the raw
component's multiplicity in the whole recipe, and emit either a direct
`hasSlot` edge (count 1) or a synthesised quantity slot (count at least 2). -/
def buildSlotsGo (recipe : List String) (schemaUri : Node) :
    List String → List String → List Triple
  | [], _ => []
  | comp :: rest, used =>
    let n := normalize_name comp
    let qty : Nat := recipe.count comp
    if n ∈ used then buildSlotsGo recipe schemaUri rest used
    else
      (if qty = 1 then [(schemaUri, hasSlotP, KGuri n)]
       else
        [(KGuri (n ++ "_" ++ toString qty ++ "x"), rdfTypeP, KGuri "BuildSchemaSlot"),
         (KGuri (n ++ "_" ++ toString qty ++ "x"), hasItemP, KGuri n),
         (KGuri (n ++ "_" ++ toString qty ++ "x"), quantityP, Node.lit (qty : Int)),
         (schemaUri, hasSlotP, KGuri (n ++ "_" ++ toString qty ++ "x"))]) ++
      buildSlotsGo recipe schemaUri rest (used ++ [n])

/-- `build_dota_item` of `src/kg/parse.py` as the list of triples it adds, in
emission order.  The item-name normalisation
`item.name.replace(" ", "_").replace(chr(39), "")` coincides with
`normalize_name`.  The string-literal triples (`name`, `imageUrl`,
`wikiUrl`) and the buffs/abilities sub-builders are omitted: the modelled
items carry no buffs or abilities, and those triples use predicates disjoint
from every schema predicate below and never share a subject with a slot. -/
def build_dota_item (item : DotaItem) : List Triple :=
  let name := normalize_name item.name
  let itemUri := KGuri name
  [(itemUri, rdfTypeP, KGuri "DotaItem"), (itemUri, costP, Node.lit item.cost)] ++
  (if item.recipe ≠ [] then
    (KGuri (name ++ "_BS"), rdfTypeP, KGuri "BuildSchema") ::
    (itemUri, hasBuildSchemaP, KGuri (name ++ "_BS")) ::
    buildSlotsGo item.recipe (KGuri (name ++ "_BS")) item.recipe []
  else [])

/-- First-occurrence deduplication of a component list, relative to an
already-processed set: the distinct components, in first-appearance order. -/
def freshComps : List String → List String → List String
  | [], _ => []
  | c :: rest, processed =>
    if c ∈ processed then freshComps rest processed
    else c :: freshComps rest (processed ++ [c])

/-- The slot reference the claim (and the code) associates to a recipe
component: the component's own identifier when its multiplicity is 1, the
synthesised `{component}_{qty}x` slot otherwise. -/
def slotRef (recipe : List String) (comp : String) : Node :=
  if recipe.count comp = 1 then KGuri (normalize_name comp)
  else KGuri (normalize_name comp ++ "_" ++ toString (recipe.count comp) ++ "x")

def mkItem (name : String) (cost : Int) (recipe : List String) (order : Int) : DotaItem :=
  { name := name, image := "", url := "", cost := cost, recipe := recipe, order := order }

/-- Catalogue with an item whose recipe names a distinct recipe node. -/
def catC2 : Catalogue :=
  [("X", mkItem "X" 100 ["Foo Recipe"] 1), ("Foo Recipe", mkItem "Foo Recipe" 10 [] 0)]

/-- Catalogue with a "recipe"-named craftable item and an item whose recipe
mixes the generic placeholder with a recipe-named component. -/
def catC7 : Catalogue :=
  [("Bad recipe holder", mkItem "Bad recipe holder" 500 ["Recipe", "E"] 1),
   ("X", mkItem "X" 500 ["Recipe", "Foo Recipe", "E"] 1),
   ("Foo Recipe", mkItem "Foo Recipe" 10 [] 0),
   ("E", mkItem "E" 200 [] 0)]

/-- The D/E scenario of the spec: D costs 500 with recipe [Recipe, E], E
costs 200. -/
def catDE : Catalogue :=
  [("D", mkItem "D" 500 ["Recipe", "E"] 1), ("E", mkItem "E" 200 [] 0)]

/-- The A/B/C scenario of the spec at the record layer. -/
def catABC : Catalogue :=
  [("A", mkItem "A" 1000 ["B", "B", "C"] 0),
   ("B", mkItem "B" 300 [] 0), ("C", mkItem "C" 400 [] 0)]

def catLeaf : Catalogue := [("B", mkItem "B" 300 [] 0)]

/-- An item whose two distinct raw components share one normalised name. -/
def itemClash : DotaItem := mkItem "W" 100 ["A B", "A_B"] 0

example : (get_full_recipe Gabc 5 (KGuri "A") []).map Prod.fst =
    some [("B", 2), ("C", 1)] := by decide
example : (get_full_recipe Gabc 5 (KGuri "B") []).map Prod.fst = some [] := by decide
example : AcyclicG Gdia := by decide
example : ¬ AcyclicG Gcyc := by decide
example : (get_full_recipe Gdia 8 (KGuri "A") []).map Prod.fst =
    some [("E", 1), ("D", 1)] := by decide
example : refFlatten Gdia 8 (KGuri "A") = some [("E", 2)] := by decide
example : (get_full_recipe Gcyc 8 (KGuri "A") []).map Prod.fst =
    some [("A", 1)] := by decide
example : (get_full_recipe_with_subitems Gdia 8 (KGuri "A") []).map (fun p => p.1.1) =
    some [("E", 1)] := by decide
example : (get_full_recipe_with_subitems Gdia 8 (KGuri "E") []).map (fun p => p.1.1) =
    some [("E", 1)] := by decide

lemma gfrSlots_ref (g : RGraph) (fuel : Nat)
    (IH : ∀ item l vis, touch g fuel item = some l → l.Nodup →
      (∀ x ∈ l, x ∉ vis) →
      ∃ r, refFlatten g fuel item = some r ∧
        get_full_recipe g fuel item vis = some (r, vis ++ l)) :
    ∀ (slots : List Node) (acc : RMap) (vis lsl : List Node),
      touchSlots g (touch g fuel) slots = some lsl → lsl.Nodup →
      (∀ x ∈ lsl, x ∉ vis) →
      ∃ r, refSlots g (refFlatten g fuel) slots acc = some r ∧
        gfrSlots g (get_full_recipe g fuel) slots acc vis = some (r, vis ++ lsl) := by
  intro slots
  induction slots with
  | nil =>
    intro acc vis lsl ht _ _
    simp only [touchSlots] at ht
    injection ht with h
    subst h
    exact ⟨acc, rfl, by simp [gfrSlots]⟩
  | cons slot rest ih =>
    intro acc vis lsl ht hnd hfresh
    cases slot with
    | lit n =>
      simp only [touchSlots, slotChild] at ht
      simp only [gfrSlots, refSlots]
      exact ih acc vis lsl ht hnd hfresh
    | uri s =>
      rcases hobj : objectsSP g (Node.uri s) hasItemP with _ | ⟨slotItem, tail⟩
      · -- slot has no hasItem edge: recurse into the slot itself
        simp only [touchSlots, slotChild, hobj] at ht
        rcases htc : touch g fuel (Node.uri s) with _ | l1 <;> rw [htc] at ht
        · exact absurd ht (by simp)
        rcases htr : touchSlots g (touch g fuel) rest with _ | l2 <;> rw [htr] at ht
        · exact absurd ht (by simp)
        injection ht with h
        subst h
        rcases List.nodup_append.mp hnd with ⟨hnd1, hnd2, hdisj⟩
        rcases IH (Node.uri s) l1 vis htc hnd1
            (fun x hx => hfresh x (List.mem_append_left _ hx)) with ⟨r1, href1, hgfr1⟩
        have fresh2 : ∀ x ∈ l2, x ∉ vis ++ l1 := by
          intro x hx
          simp only [List.mem_append]
          rintro (hv | h1)
          · exact hfresh x (List.mem_append_right _ hx) hv
          · exact hdisj h1 hx
        rcases ih (if r1 = [] then addTo acc (get_name_from_uri (Node.uri s)) 1
              else merge1 acc r1) (vis ++ l1) l2 htr hnd2 fresh2 with ⟨r, hr, hg⟩
        refine ⟨r, ?_, ?_⟩
        · simp only [refSlots, hobj, href1]
          exact hr
        · simp only [gfrSlots, hobj, hgfr1]
          rw [hg, List.append_assoc]
      · -- slot has a hasItem edge
        cases slotItem with
        | lit m =>
          simp only [touchSlots, slotChild, hobj] at ht
          simp only [gfrSlots, refSlots, hobj]
          exact ih acc vis lsl ht hnd hfresh
        | uri si =>
          simp only [touchSlots, slotChild, hobj] at ht
          rcases htc : touch g fuel (Node.uri si) with _ | l1 <;> rw [htc] at ht
          · exact absurd ht (by simp)
          rcases htr : touchSlots g (touch g fuel) rest with _ | l2 <;> rw [htr] at ht
          · exact absurd ht (by simp)
          injection ht with h
          subst h
          rcases List.nodup_append.mp hnd with ⟨hnd1, hnd2, hdisj⟩
          rcases IH (Node.uri si) l1 vis htc hnd1
              (fun x hx => hfresh x (List.mem_append_left _ hx)) with ⟨r1, href1, hgfr1⟩
          have fresh2 : ∀ x ∈ l2, x ∉ vis ++ l1 := by
            intro x hx
            simp only [List.mem_append]
            rintro (hv | h1)
            · exact hfresh x (List.mem_append_right _ hx) hv
            · exact hdisj h1 hx
          rcases ih (if r1 = [] then
                addTo acc (get_name_from_uri (Node.uri si)) (qtyOf g (Node.uri s))
              else mergeScaled acc r1 (qtyOf g (Node.uri s)))
              (vis ++ l1) l2 htr hnd2 fresh2 with ⟨r, hr, hg⟩
          refine ⟨r, ?_, ?_⟩
          · simp only [refSlots, hobj, href1]
            exact hr
          · simp only [gfrSlots, hobj, hgfr1]
            rw [hg, List.append_assoc]

/-- When the pure unfolding of an item touches each node at most once and
none of them is already visited, `get_full_recipe` computes exactly the
reference flattening and appends the touched nodes to `visited`. -/
lemma gfr_eq_ref (g : RGraph) :
    ∀ (fuel : Nat) (item : Node) (l vis : List Node),
      touch g fuel item = some l → l.Nodup → (∀ x ∈ l, x ∉ vis) →
      ∃ r, refFlatten g fuel item = some r ∧
        get_full_recipe g fuel item vis = some (r, vis ++ l) := by
  intro fuel
  induction fuel with
  | zero => intro item l vis ht _ _; simp [touch] at ht
  | succ fuel ih =>
    intro item l vis ht hnd hfresh
    rcases hsch : objectsSP g item hasBuildSchemaP with _ | ⟨schema, tail⟩
    · simp only [touch, hsch] at ht
      injection ht with h
      subst h
      have hnv : item ∉ vis := hfresh item (by simp)
      exact ⟨[], by simp [refFlatten, hsch],
        by simp [get_full_recipe, hsch, hnv]⟩
    · simp only [touch, hsch] at ht
      rcases hts : touchSlots g (touch g fuel) (objectsSP g schema hasSlotP)
        with _ | lsl <;> rw [hts] at ht
      · exact absurd ht (by simp)
      injection ht with h
      subst h
      rcases List.nodup_cons.mp hnd with ⟨hitem, hnd2⟩
      have hnv : item ∉ vis := hfresh item (by simp)
      have fresh2 : ∀ x ∈ lsl, x ∉ vis ++ [item] := by
        intro x hx
        simp only [List.mem_append, List.mem_singleton]
        rintro (hv | he)
        · exact hfresh x (by simp [hx]) hv
        · exact hitem (he ▸ hx)
      rcases gfrSlots_ref g fuel ih (objectsSP g schema hasSlotP) [] (vis ++ [item])
          lsl hts hnd2 fresh2 with ⟨r, hr, hg⟩
      refine ⟨r, by simp [refFlatten, hsch, hr], ?_⟩
      simp only [get_full_recipe, hsch, hnv, ite_false]
      rw [hg]
      simp

/-- C1 counterexample: the claim is false as stated.  `Gdia` is an acyclic
catalogue (diamond: A's branches B and C share the interior item D), yet
`get_full_recipe` does not return the reference flattening of A's recipe
tree: the shared `visited` set makes the second branch credit the already
visited interior item D by name instead of expanding it, giving
`[E: 1, D: 1]` where the reference flattening gives `[E: 2]`. -/
theorem C1_flatten_ref_counterexample :
    AcyclicG Gdia ∧
    (get_full_recipe Gdia 8 (KGuri "A") []).map Prod.fst = some [("E", 1), ("D", 1)] ∧
    refFlatten Gdia 8 (KGuri "A") = some [("E", 2)] ∧
    (get_full_recipe Gdia 8 (KGuri "A") []).map Prod.fst ≠ refFlatten Gdia 8 (KGuri "A") := by
  refine ⟨by decide, by decide, by decide, by decide⟩

/-- C1 amended: for every item whose recipe unfolding touches each node at
most once (so in particular in an acyclic catalogue in which no sub-item is
shared between two branches of the item's recipe tree), `get_full_recipe`
returns exactly the reference flattening of its recipe tree: an item with no
build schema yields the empty mapping, and an item with a schema yields the
sum over its slots of the recursively flattened leaf counts, each multiplied
by the slot's quantity, with a slot whose recursion yields an empty mapping
credited by its own item name at that quantity. -/
theorem C1_flatten_ref_amended (g : RGraph) (fuel : Nat) (item : Node)
    (l : List Node) (ht : touch g fuel item = some l) (hnd : l.Nodup) :
    ∃ r, refFlatten g fuel item = some r ∧
      get_full_recipe g fuel item [] = some (r, l) := by
  rcases gfr_eq_ref g fuel item l [] ht hnd (by simp) with ⟨r, h1, h2⟩
  exact ⟨r, h1, by simpa using h2⟩

lemma filter_length_mono {α : Type} (l : List α) (p q : α → Bool)
    (h : ∀ x ∈ l, p x = true → q x = true) :
    (l.filter p).length ≤ (l.filter q).length := by
  induction l with
  | nil => simp
  | cons a l ih =>
    have ih2 := ih (fun x hx => h x (List.mem_cons_of_mem a hx))
    by_cases hp : p a = true
    · rw [List.filter_cons_of_pos hp, List.filter_cons_of_pos (h a (List.mem_cons_self a l) hp)]
      simpa using ih2
    · rw [List.filter_cons_of_neg (by simpa using hp)]
      cases hq : q a
      · rw [List.filter_cons_of_neg (by simp [hq])]
        exact ih2
      · rw [List.filter_cons_of_pos hq]
        exact le_trans ih2 (Nat.le_succ _)

lemma filter_visit_lt {α : Type} [DecidableEq α] (l : List α) (a : α) (vis : List α)
    (ha : a ∈ l) (hav : a ∉ vis) :
    (l.filter (fun x => decide (x ∉ vis ++ [a]))).length <
      (l.filter (fun x => decide (x ∉ vis))).length := by
  induction l with
  | nil => cases ha
  | cons b l ih =>
    by_cases hba : b = a
    · subst hba
      rw [List.filter_cons_of_neg (by simp), List.filter_cons_of_pos (by simpa using hav)]
      have hm := filter_length_mono l (fun x => decide (x ∉ vis ++ [b]))
        (fun x => decide (x ∉ vis))
        (fun x _ hx => by
          simp only [decide_eq_true_eq, List.mem_append] at hx ⊢
          exact fun hv => hx (Or.inl hv))
      simp only [List.length_cons]
      omega
    · rcases List.mem_cons.mp ha with h | h
      · exact absurd h.symm hba
      · by_cases hbv : b ∈ vis
        · rw [List.filter_cons_of_neg (by simp [hbv]),
            List.filter_cons_of_neg (by simp [hbv])]
          exact ih h
        · rw [List.filter_cons_of_pos
            (by simp only [decide_eq_true_eq, List.mem_append, List.mem_singleton]
                exact fun hor => by rcases hor with hv | he; exact hbv hv; exact hba he),
            List.filter_cons_of_pos (by simpa using hbv)]
          simpa using Nat.succ_lt_succ (ih h)

lemma unseen_visit_lt (g : RGraph) (item : Node) (vis : List Node)
    (hm : item ∈ objsList g) (hin : item ∉ vis) :
    unseen g (vis ++ [item]) < unseen g vis :=
  filter_visit_lt _ item vis (List.mem_dedup.mpr hm) hin

lemma unseen_mono (g : RGraph) (vis ext : List Node) :
    unseen g (vis ++ ext) ≤ unseen g vis :=
  filter_length_mono _ _ _ (fun x _ hx => by
    simp only [decide_eq_true_eq, List.mem_append] at hx ⊢
    exact fun hv => hx (Or.inl hv))

lemma unseen_le (g : RGraph) (vis : List Node) :
    unseen g vis ≤ (objsList g).dedup.length :=
  List.length_filter_le _ _

lemma mem_objectsSP {g : RGraph} {s p x : Node} (h : x ∈ objectsSP g s p) :
    x ∈ objsList g := by
  simp only [objectsSP, List.mem_map, List.mem_filter] at h
  rcases h with ⟨t, ⟨htg, _⟩, rfl⟩
  exact List.mem_map.mpr ⟨t, htg, rfl⟩

lemma gfrSlots_vis_ext (g : RGraph)
    (f : Node → List Node → Option (RMap × List Node))
    (hf : ∀ item vis r v2, f item vis = some (r, v2) → ∃ ext, v2 = vis ++ ext) :
    ∀ (slots : List Node) (acc : RMap) (vis : List Node) (r : RMap) (v2 : List Node),
      gfrSlots g f slots acc vis = some (r, v2) → ∃ ext, v2 = vis ++ ext := by
  intro slots
  induction slots with
  | nil =>
    intro acc vis r v2 h
    simp only [gfrSlots] at h
    injection h with h
    injection h with _ h2
    exact ⟨[], by simp [h2.symm]⟩
  | cons slot rest ih =>
    intro acc vis r v2 h
    cases slot with
    | lit n => exact ih acc vis r v2 h
    | uri s =>
      rcases hobj : objectsSP g (Node.uri s) hasItemP with _ | ⟨slotItem, tail⟩
      · simp only [gfrSlots, hobj] at h
        rcases hr : f (Node.uri s) vis with _ | ⟨sub, visX⟩
        all_goals rw [hr] at h
        · exact absurd h (by simp)
        · rcases hf _ _ _ _ hr with ⟨e1, rfl⟩
          rcases ih _ _ _ _ h with ⟨e2, rfl⟩
          exact ⟨e1 ++ e2, by simp⟩
      · cases slotItem with
        | lit m =>
          simp only [gfrSlots, hobj] at h
          exact ih acc vis r v2 h
        | uri si =>
          simp only [gfrSlots, hobj] at h
          rcases hr : f (Node.uri si) vis with _ | ⟨sub, visX⟩
          all_goals rw [hr] at h
          · exact absurd h (by simp)
          · rcases hf _ _ _ _ hr with ⟨e1, rfl⟩
            rcases ih _ _ _ _ h with ⟨e2, rfl⟩
            exact ⟨e1 ++ e2, by simp⟩

lemma gfr_vis_ext (g : RGraph) :
    ∀ (fuel : Nat) (item : Node) (vis : List Node) (r : RMap) (v2 : List Node),
      get_full_recipe g fuel item vis = some (r, v2) → ∃ ext, v2 = vis ++ ext := by
  intro fuel
  induction fuel with
  | zero => intro item vis r v2 h; simp [get_full_recipe] at h
  | succ fuel ih =>
    intro item vis r v2 h
    by_cases hin : item ∈ vis
    · simp only [get_full_recipe, hin, ite_true] at h
      injection h with h
      injection h with _ h2
      exact ⟨[], by simp [h2.symm]⟩
    · simp only [get_full_recipe, hin, ite_false] at h
      rcases hsch : objectsSP g item hasBuildSchemaP with _ | ⟨schema, tail⟩ <;>
        rw [hsch] at h
      · injection h with h
        injection h with _ h2
        exact ⟨[item], h2.symm⟩
      · rcases gfrSlots_vis_ext g _ (fun i v r2 w2 hw => ih i v r2 w2 hw) _ _ _ _ _ h
          with ⟨ext, rfl⟩
        exact ⟨item :: ext, by simp⟩

lemma gfrSlots_total (g : RGraph) (fuel : Nat)
    (hf : ∀ item vis2, item ∈ objsList g → unseen g vis2 < fuel →
      (get_full_recipe g fuel item vis2).isSome = true) :
    ∀ (slots : List Node) (acc : RMap) (vis : List Node),
      (∀ slot ∈ slots, slot ∈ objsList g) → unseen g vis < fuel →
      (gfrSlots g (get_full_recipe g fuel) slots acc vis).isSome = true := by
  intro slots
  induction slots with
  | nil => intro acc vis _ _; simp [gfrSlots]
  | cons slot rest ih =>
    intro acc vis hmem hu
    have hrest : ∀ s ∈ rest, s ∈ objsList g := fun s hs => hmem s (List.mem_cons_of_mem _ hs)
    cases slot with
    | lit n => exact ih acc vis hrest hu
    | uri s =>
      rcases hobj : objectsSP g (Node.uri s) hasItemP with _ | ⟨slotItem, tail⟩
      · have hmem2 : Node.uri s ∈ objsList g := hmem _ (List.mem_cons_self _ _)
        have h1 := hf (Node.uri s) vis hmem2 hu
        rcases hr : get_full_recipe g fuel (Node.uri s) vis with _ | ⟨sub, vis2⟩
        · rw [hr] at h1; simp at h1
        · rcases gfr_vis_ext g fuel _ _ _ _ hr with ⟨ext, rfl⟩
          simp only [gfrSlots, hobj, hr]
          exact ih _ _ hrest (lt_of_le_of_lt (unseen_mono g vis ext) hu)
      · cases slotItem with
        | lit m =>
          simp only [gfrSlots, hobj]
          exact ih acc vis hrest hu
        | uri si =>
          have hmem2 : Node.uri si ∈ objsList g :=
            mem_objectsSP (hobj ▸ List.mem_cons_self _ _)
          have h1 := hf (Node.uri si) vis hmem2 hu
          rcases hr : get_full_recipe g fuel (Node.uri si) vis with _ | ⟨sub, vis2⟩
          · rw [hr] at h1; simp at h1
          · rcases gfr_vis_ext g fuel _ _ _ _ hr with ⟨ext, rfl⟩
            simp only [gfrSlots, hobj, hr]
            exact ih _ _ hrest (lt_of_le_of_lt (unseen_mono g vis ext) hu)

lemma gfr_total (g : RGraph) :
    ∀ (fuel : Nat) (item : Node) (vis : List Node), item ∈ objsList g →
      unseen g vis < fuel → (get_full_recipe g fuel item vis).isSome = true := by
  intro fuel
  induction fuel with
  | zero => intro item vis _ h; omega
  | succ fuel ih =>
    intro item vis hm hu
    by_cases hin : item ∈ vis
    · simp [get_full_recipe, hin]
    · simp only [get_full_recipe, hin, ite_false]
      rcases hsch : objectsSP g item hasBuildSchemaP with _ | ⟨schema, tail⟩
      · simp
      · have hlt : unseen g (vis ++ [item]) < fuel :=
          lt_of_lt_of_le (unseen_visit_lt g item vis hm hin) (Nat.lt_succ_iff.mp hu)
        exact gfrSlots_total g fuel ih (objectsSP g schema hasSlotP) [] (vis ++ [item])
          (fun s hs => mem_objectsSP hs) hlt

lemma addTo_ne (m : RMap) (k : String) (v : Int) : addTo m k v ≠ [] := by
  cases m with
  | nil => simp [addTo]
  | cons p rest =>
    obtain ⟨k0, v0⟩ := p
    simp only [addTo]
    split <;> simp

lemma foldl_addTo_ne (e : String × Int → Int) :
    ∀ (l : List (String × Int)) (acc : RMap), acc ≠ [] →
      l.foldl (fun a p => addTo a p.1 (e p)) acc ≠ [] := by
  intro l
  induction l with
  | nil => intro acc h; simpa using h
  | cons p rest ih => intro acc _; exact ih _ (addTo_ne _ _ _)

lemma mergeScaled_ne_left (acc sub : RMap) (q : Int) (h : acc ≠ []) :
    mergeScaled acc sub q ≠ [] := by
  simp only [mergeScaled]
  exact foldl_addTo_ne _ sub acc h

lemma mergeScaled_ne_sub (acc sub : RMap) (q : Int) (h : sub ≠ []) :
    mergeScaled acc sub q ≠ [] := by
  cases sub with
  | nil => exact absurd rfl h
  | cons p rest =>
    simp only [mergeScaled, List.foldl]
    exact foldl_addTo_ne _ rest _ (addTo_ne _ _ _)

lemma merge1_ne_sub (acc sub : RMap) (h : sub ≠ []) : merge1 acc sub ≠ [] := by
  cases sub with
  | nil => exact absurd rfl h
  | cons p rest =>
    simp only [merge1, List.foldl]
    exact foldl_addTo_ne _ rest _ (addTo_ne _ _ _)

lemma gfrSlots_ne (g : RGraph) (f : Node → List Node → Option (RMap × List Node)) :
    ∀ (slots : List Node) (acc : RMap) (vis : List Node) (r : RMap) (v2 : List Node),
      gfrSlots g f slots acc vis = some (r, v2) →
      (acc ≠ [] ∨ slots.any (fun s => (slotChild g s).isSome) = true) →
      r ≠ [] := by
  intro slots
  induction slots with
  | nil =>
    intro acc vis r v2 h hc
    simp only [gfrSlots] at h
    injection h with h
    injection h with h1 _
    rcases hc with hc | hc
    · exact h1 ▸ hc
    · simp at hc
  | cons slot rest ih =>
    intro acc vis r v2 h hc
    cases slot with
    | lit n =>
      refine ih acc vis r v2 h ?_
      rcases hc with hc | hc
      · exact Or.inl hc
      · simp only [List.any_cons, slotChild, Option.isSome_none, Bool.false_or] at hc
        exact Or.inr hc
    | uri s =>
      rcases hobj : objectsSP g (Node.uri s) hasItemP with _ | ⟨slotItem, tail⟩
      · simp only [gfrSlots, hobj] at h
        rcases hr : f (Node.uri s) vis with _ | ⟨sub, vis2⟩ <;> rw [hr] at h
        · exact absurd h (by simp)
        · refine ih _ _ _ _ h (Or.inl ?_)
          by_cases hsub : sub = []
          · simp only [hsub, ite_true]
            exact addTo_ne _ _ _
          · simp only [hsub, ite_false]
            exact merge1_ne_sub _ _ hsub
      · cases slotItem with
        | lit m =>
          simp only [gfrSlots, hobj] at h
          refine ih acc vis r v2 h ?_
          rcases hc with hc | hc
          · exact Or.inl hc
          · simp only [List.any_cons, slotChild, hobj, Option.isSome_none, Bool.false_or] at hc
            exact Or.inr hc
        | uri si =>
          simp only [gfrSlots, hobj] at h
          rcases hr : f (Node.uri si) vis with _ | ⟨sub, vis2⟩ <;> rw [hr] at h
          · exact absurd h (by simp)
          · refine ih _ _ _ _ h (Or.inl ?_)
            by_cases hsub : sub = []
            · simp only [hsub, ite_true]
              exact addTo_ne _ _ _
            · simp only [hsub, ite_false]
              exact mergeScaled_ne_sub _ _ _ hsub

lemma wsSlots_sync (g : RGraph) (fuel : Nat)
    (IH : ∀ item l vis, touch g fuel item = some l → l.Nodup →
      (∀ x ∈ l, x ∉ vis) → (∀ x ∈ l, productiveAt g x = true) →
      ∃ r w s2, get_full_recipe g fuel item vis = some (r, vis ++ l) ∧
        get_full_recipe_with_subitems g fuel item vis = some ((w, s2), vis ++ l) ∧
        ((objectsSP g item hasBuildSchemaP = [] ∧ r = [] ∧
            w = [(get_name_from_uri item, 1)]) ∨
         (objectsSP g item hasBuildSchemaP ≠ [] ∧ w = r ∧ r ≠ []))) :
    ∀ (slots : List Node) (acc : RMap) (subs : List String) (vis lsl : List Node),
      touchSlots g (touch g fuel) slots = some lsl → lsl.Nodup →
      (∀ x ∈ lsl, x ∉ vis) → (∀ x ∈ lsl, productiveAt g x = true) →
      ∃ r s2,
        gfrSlots g (get_full_recipe g fuel) slots acc vis = some (r, vis ++ lsl) ∧
        wsSlots g (get_full_recipe_with_subitems g fuel) slots acc subs vis =
          some ((r, s2), vis ++ lsl) := by
  intro slots
  induction slots with
  | nil =>
    intro acc subs vis lsl ht _ _ _
    simp only [touchSlots] at ht
    injection ht with h
    subst h
    exact ⟨acc, subs, by simp [gfrSlots], by simp [wsSlots]⟩
  | cons slot rest ih =>
    intro acc subs vis lsl ht hnd hfresh hprod
    cases slot with
    | lit n =>
      simp only [touchSlots, slotChild] at ht
      simp only [gfrSlots, wsSlots]
      exact ih acc subs vis lsl ht hnd hfresh hprod
    | uri s =>
      rcases hobj : objectsSP g (Node.uri s) hasItemP with _ | ⟨slotItem, tail⟩
      · simp only [touchSlots, slotChild, hobj] at ht
        rcases htc : touch g fuel (Node.uri s) with _ | l1 <;> rw [htc] at ht
        · exact absurd ht (by simp)
        rcases htr : touchSlots g (touch g fuel) rest with _ | l2 <;> rw [htr] at ht
        · exact absurd ht (by simp)
        injection ht with h
        subst h
        rcases List.nodup_append.mp hnd with ⟨hnd1, hnd2, hdisj⟩
        rcases IH (Node.uri s) l1 vis htc hnd1
            (fun x hx => hfresh x (List.mem_append_left _ hx))
            (fun x hx => hprod x (List.mem_append_left _ hx))
          with ⟨rc, wc, sc, hgc, hwc, hcase⟩
        have fresh2 : ∀ x ∈ l2, x ∉ vis ++ l1 := by
          intro x hx
          simp only [List.mem_append]
          rintro (hv | h1)
          · exact hfresh x (List.mem_append_right _ hx) hv
          · exact hdisj h1 hx
        have prod2 : ∀ x ∈ l2, productiveAt g x = true :=
          fun x hx => hprod x (List.mem_append_right _ hx)
        have hacc : ∀ acc0 : RMap,
            merge1 acc0 wc =
              (if rc = [] then addTo acc0 (get_name_from_uri (Node.uri s)) 1
               else merge1 acc0 rc) := by
          intro acc0
          rcases hcase with ⟨_, hrc, hwc2⟩ | ⟨_, hwc2, hrc⟩
          · subst hrc
            subst hwc2
            simp [merge1]
          · subst hwc2
            simp [hrc]
        rcases ih (if rc = [] then addTo acc (get_name_from_uri (Node.uri s)) 1
              else merge1 acc rc)
            (sunion (sadd subs (get_name_from_uri (Node.uri s))) sc)
            (vis ++ l1) l2 htr hnd2 fresh2 prod2 with ⟨r, s2, hg, hw⟩
        refine ⟨r, s2, ?_, ?_⟩
        · simp only [gfrSlots, hobj, hgc]
          rw [hg, List.append_assoc]
        · simp only [wsSlots, hobj, hwc]
          rw [← hacc acc] at hw
          rw [hw, List.append_assoc]
      · cases slotItem with
        | lit m =>
          simp only [touchSlots, slotChild, hobj] at ht
          simp only [gfrSlots, wsSlots, hobj]
          exact ih acc subs vis lsl ht hnd hfresh hprod
        | uri si =>
          simp only [touchSlots, slotChild, hobj] at ht
          rcases htc : touch g fuel (Node.uri si) with _ | l1 <;> rw [htc] at ht
          · exact absurd ht (by simp)
          rcases htr : touchSlots g (touch g fuel) rest with _ | l2 <;> rw [htr] at ht
          · exact absurd ht (by simp)
          injection ht with h
          subst h
          rcases List.nodup_append.mp hnd with ⟨hnd1, hnd2, hdisj⟩
          rcases IH (Node.uri si) l1 vis htc hnd1
              (fun x hx => hfresh x (List.mem_append_left _ hx))
              (fun x hx => hprod x (List.mem_append_left _ hx))
            with ⟨rc, wc, sc, hgc, hwc, hcase⟩
          have fresh2 : ∀ x ∈ l2, x ∉ vis ++ l1 := by
            intro x hx
            simp only [List.mem_append]
            rintro (hv | h1)
            · exact hfresh x (List.mem_append_right _ hx) hv
            · exact hdisj h1 hx
          have prod2 : ∀ x ∈ l2, productiveAt g x = true :=
            fun x hx => hprod x (List.mem_append_right _ hx)
          have hacc : ∀ acc0 : RMap,
              mergeScaled acc0 wc (qtyOf g (Node.uri s)) =
                (if rc = [] then
                  addTo acc0 (get_name_from_uri (Node.uri si)) (qtyOf g (Node.uri s))
                 else mergeScaled acc0 rc (qtyOf g (Node.uri s))) := by
            intro acc0
            rcases hcase with ⟨_, hrc, hwc2⟩ | ⟨_, hwc2, hrc⟩
            · subst hrc
              subst hwc2
              simp [mergeScaled]
            · subst hwc2
              simp [hrc]
          rcases ih (if rc = [] then
                addTo acc (get_name_from_uri (Node.uri si)) (qtyOf g (Node.uri s))
              else mergeScaled acc rc (qtyOf g (Node.uri s)))
              (sunion (sadd subs (get_name_from_uri (Node.uri si))) sc)
              (vis ++ l1) l2 htr hnd2 fresh2 prod2 with ⟨r, s2, hg, hw⟩
          refine ⟨r, s2, ?_, ?_⟩
          · simp only [gfrSlots, hobj, hgc]
            rw [hg, List.append_assoc]
          · simp only [wsSlots, hobj, hwc]
            rw [← hacc acc] at hw
            rw [hw, List.append_assoc]

/-- Under a once-touched, productive unfolding, `get_full_recipe` and
`get_full_recipe_with_subitems` walk the same visited sets; their leaf-count
mappings agree on items with a build schema, while a leaf item yields the
empty mapping for the former and its own singleton for the latter. -/
lemma ws_sync (g : RGraph) :
    ∀ (fuel : Nat) (item : Node) (l vis : List Node),
      touch g fuel item = some l → l.Nodup →
      (∀ x ∈ l, x ∉ vis) → (∀ x ∈ l, productiveAt g x = true) →
      ∃ r w s2, get_full_recipe g fuel item vis = some (r, vis ++ l) ∧
        get_full_recipe_with_subitems g fuel item vis = some ((w, s2), vis ++ l) ∧
        ((objectsSP g item hasBuildSchemaP = [] ∧ r = [] ∧
            w = [(get_name_from_uri item, 1)]) ∨
         (objectsSP g item hasBuildSchemaP ≠ [] ∧ w = r ∧ r ≠ [])) := by
  intro fuel
  induction fuel with
  | zero => intro item l vis ht _ _ _; simp [touch] at ht
  | succ fuel ih =>
    intro item l vis ht hnd hfresh hprod
    rcases hsch : objectsSP g item hasBuildSchemaP with _ | ⟨schema, tail⟩
    · simp only [touch, hsch] at ht
      injection ht with h
      subst h
      have hnv : item ∉ vis := hfresh item (by simp)
      exact ⟨[], [(get_name_from_uri item, 1)], [],
        by simp [get_full_recipe, hsch, hnv],
        by simp [get_full_recipe_with_subitems, hsch, hnv],
        Or.inl ⟨rfl, rfl, rfl⟩⟩
    · simp only [touch, hsch] at ht
      rcases hts : touchSlots g (touch g fuel) (objectsSP g schema hasSlotP)
        with _ | lsl <;> rw [hts] at ht
      · exact absurd ht (by simp)
      injection ht with h
      subst h
      rcases List.nodup_cons.mp hnd with ⟨hitem, hnd2⟩
      have hnv : item ∉ vis := hfresh item (by simp)
      have fresh2 : ∀ x ∈ lsl, x ∉ vis ++ [item] := by
        intro x hx
        simp only [List.mem_append, List.mem_singleton]
        rintro (hv | he)
        · exact hfresh x (by simp [hx]) hv
        · exact hitem (he ▸ hx)
      have prod2 : ∀ x ∈ lsl, productiveAt g x = true :=
        fun x hx => hprod x (by simp [hx])
      rcases wsSlots_sync g fuel ih (objectsSP g schema hasSlotP) [] [] (vis ++ [item])
          lsl hts hnd2 fresh2 prod2 with ⟨r, s2, hg, hw⟩
      have hany : (objectsSP g schema hasSlotP).any
          (fun slot => (slotChild g slot).isSome) = true := by
        have := hprod item (by simp)
        simpa [productiveAt, hsch] using this
      have hrne : r ≠ [] := gfrSlots_ne g _ _ _ _ _ _ hg (Or.inr hany)
      refine ⟨r, r, s2, ?_, ?_, Or.inr ⟨by simp [hsch], rfl, hrne⟩⟩
      · simp only [get_full_recipe, hsch, hnv, ite_false]
        rw [hg]
        simp
      · simp only [get_full_recipe_with_subitems, hsch, hnv, ite_false]
        rw [hw]
        simp

/-- C3 counterexample: the claim is false as stated.  On the acyclic graph
`Gdia`, the first component of `get_full_recipe_with_subitems` differs from
`get_full_recipe` both on the schema-bearing item A (a revisited interior
item is credited by name by `get_full_recipe` but contributes nothing in the
variant) and on the leaf item E (empty mapping versus `[E: 1]`), the latter
contradicting the claim's "includes the case of an item with no build
schema". -/
theorem C3_ws_fst_counterexample :
    (get_full_recipe Gdia 8 (KGuri "A") []).map Prod.fst = some [("E", 1), ("D", 1)] ∧
    (get_full_recipe_with_subitems Gdia 8 (KGuri "A") []).map (fun p => p.1.1) =
      some [("E", 1)] ∧
    (get_full_recipe Gdia 8 (KGuri "A") []).map Prod.fst ≠
      (get_full_recipe_with_subitems Gdia 8 (KGuri "A") []).map (fun p => p.1.1) ∧
    (get_full_recipe Gdia 8 (KGuri "E") []).map Prod.fst = some [] ∧
    (get_full_recipe_with_subitems Gdia 8 (KGuri "E") []).map (fun p => p.1.1) =
      some [("E", 1)] :=
  ⟨by decide, by decide, by decide, by decide, by decide⟩

/-- C3 amended: when the unfolding touches each item at most once and every
touched schema is productive (has at least one slot the resolver recurses
into), both flattening variants walk the same visited set and, for an item
*with* a build schema, the leaf-count mapping returned by
`get_full_recipe_with_subitems` equals the one returned by
`get_full_recipe`; for an item with no build schema `get_full_recipe` returns
the empty mapping while the variant returns the singleton crediting the item
itself. -/
theorem C3_ws_fst_amended (g : RGraph) (fuel : Nat) (item : Node) (l : List Node)
    (ht : touch g fuel item = some l) (hnd : l.Nodup)
    (hprod : ∀ x ∈ l, productiveAt g x = true) :
    ∃ r w s2 vis2, get_full_recipe g fuel item [] = some (r, vis2) ∧
      get_full_recipe_with_subitems g fuel item [] = some ((w, s2), vis2) ∧
      (objectsSP g item hasBuildSchemaP ≠ [] → w = r) ∧
      (objectsSP g item hasBuildSchemaP = [] →
        r = [] ∧ w = [(get_name_from_uri item, 1)]) := by
  rcases ws_sync g fuel item l [] ht hnd (by simp) hprod with ⟨r, w, s2, h1, h2, hc⟩
  refine ⟨r, w, s2, l, by simpa using h1, by simpa using h2, ?_, ?_⟩
  · intro hne
    rcases hc with ⟨he, _, _⟩ | ⟨_, hwr, _⟩
    · exact absurd he hne
    · exact hwr
  · intro he
    rcases hc with ⟨_, hr, hw⟩ | ⟨hne, _, _⟩
    · exact ⟨hr, hw⟩
    · exact absurd he hne

/-- C3 witness: on the catalogue `Gabc` the unfolding of A touches A, B, C
once each and every schema is productive, so the two variants agree on A's
leaf counts. -/
theorem C3_ws_fst_witness :
    touch Gabc 4 (KGuri "A") = some [KGuri "A", KGuri "B", KGuri "C"] ∧
    ([KGuri "A", KGuri "B", KGuri "C"] : List Node).Nodup ∧
    (∀ x ∈ [KGuri "A", KGuri "B", KGuri "C"], productiveAt Gabc x = true) ∧
    (∃ r w s2 vis2, get_full_recipe Gabc 4 (KGuri "A") [] = some (r, vis2) ∧
      get_full_recipe_with_subitems Gabc 4 (KGuri "A") [] = some ((w, s2), vis2) ∧
      (objectsSP Gabc (KGuri "A") hasBuildSchemaP ≠ [] → w = r) ∧
      (objectsSP Gabc (KGuri "A") hasBuildSchemaP = [] →
        r = [] ∧ w = [(get_name_from_uri (KGuri "A"), 1)])) ∧
    (get_full_recipe_with_subitems Gabc 4 (KGuri "A") []).map (fun p => p.1.1) =
      some [("B", 2), ("C", 1)] :=
  ⟨by decide, by decide, by decide,
    C3_ws_fst_amended Gabc 4 (KGuri "A") [KGuri "A", KGuri "B", KGuri "C"]
      (by decide) (by decide) (by decide),
    by decide⟩

/-- C5: on every finite graph — cyclic ones included — `get_full_recipe`
terminates: fuel `|distinct graph objects| + 2` is always enough, because a
recursive call on an already-visited identifier returns immediately and every
productive descent strictly grows the visited set, which is bounded by the
finite set of node identifiers occurring in the graph. -/
theorem C5_terminates (g : RGraph) (item : Node) :
    (get_full_recipe g ((objsList g).dedup.length + 2) item []).isSome = true := by
  by_cases hm : item ∈ objsList g
  · refine gfr_total g _ item [] hm ?_
    have := unseen_le g []
    omega
  · simp only [get_full_recipe, List.not_mem_nil, ite_false]
    rcases hsch : objectsSP g item hasBuildSchemaP with _ | ⟨schema, tail⟩
    · simp
    · refine gfrSlots_total g ((objsList g).dedup.length + 1)
        (fun i v h1 h2 => gfr_total g _ i v h1 h2)
        (objectsSP g schema hasSlotP) [] ([] ++ [item])
        (fun s hs => mem_objectsSP hs) ?_
      have h1 := unseen_mono g [] [item]
      have h2 := unseen_le g []
      omega

/-- C4 counterexample: the claim is false as stated.  On the cyclic graph
`Gcyc` (item A whose schema's slot is A itself) the revisited identifier A
does *not* contribute nothing to the returned mapping: its recursion returns
an empty mapping, so the caller falls into the leaf-crediting branch and
credits A by name at the slot quantity, returning `[A: 1]` rather than an
empty mapping. -/
theorem C4_cycle_counterexample :
    (get_full_recipe Gcyc 8 (KGuri "A") []).map Prod.fst = some [("A", 1)] ∧
    (get_full_recipe Gcyc 8 (KGuri "A") []).map Prod.fst ≠ some ([] : RMap) := by
  exact ⟨by decide, by decide⟩

/-- C4 amended: on a cyclic recipe graph no error is raised; reaching an item
identifier already in the visited set of the same top-level call returns the
empty mapping immediately (without recursing and leaving `visited`
unchanged), and the caller then credits the revisited item by its own name at
the slot's quantity — only the branch's deeper expansion is dropped.  On the
one-cycle graph `Gcyc` the result is `[A: 1]`, and the call still terminates
at the standard fuel bound. -/
theorem C4_cycle_amended :
    (∀ (g : RGraph) (fuel : Nat) (item : Node) (visited : List Node),
      item ∈ visited →
        get_full_recipe g (fuel + 1) item visited = some ([], visited)) ∧
    (get_full_recipe Gcyc 8 (KGuri "A") []).map Prod.fst = some [("A", 1)] ∧
    (get_full_recipe Gcyc ((objsList Gcyc).dedup.length + 2) (KGuri "A") []).isSome = true :=
  ⟨fun g fuel item visited h => by simp [get_full_recipe, h], by decide, by decide⟩

/-- C4 witness: the revisit clause of the amended theorem applied at a
concrete input. -/
theorem C4_cycle_witness :
    (KGuri "A" ∈ [KGuri "A"]) ∧
    get_full_recipe Gcyc (4 + 1) (KGuri "A") [KGuri "A"] = some ([], [KGuri "A"]) :=
  ⟨by decide, C4_cycle_amended.1 Gcyc 4 (KGuri "A") [KGuri "A"] (by decide)⟩

/-- C1 witness: the concrete scenario of the claim.  Catalogue `Gabc`: item A
(cost 1000, recipe B, B, C), leaves B and C; the unfolding touches A, B, C
exactly once, the amended theorem applies, and `flatten(A) = [B: 2, C: 1]`. -/
theorem C1_flatten_ref_witness :
    touch Gabc 4 (KGuri "A") = some [KGuri "A", KGuri "B", KGuri "C"] ∧
    ([KGuri "A", KGuri "B", KGuri "C"] : List Node).Nodup ∧
    (∃ r, refFlatten Gabc 4 (KGuri "A") = some r ∧
      get_full_recipe Gabc 4 (KGuri "A") [] =
        some (r, [KGuri "A", KGuri "B", KGuri "C"])) ∧
    (get_full_recipe Gabc 4 (KGuri "A") []).map Prod.fst = some [("B", 2), ("C", 1)] :=
  ⟨by decide, by decide,
    C1_flatten_ref_amended Gabc 4 (KGuri "A") _ (by decide) (by decide),
    by decide⟩


lemma lookup_append_some {α β : Type} [BEq α] (l1 l2 : List (α × β)) (a : α) (b : β)
    (h : l1.lookup a = some b) : (l1 ++ l2).lookup a = some b := by
  induction l1 with
  | nil => simp [List.lookup] at h
  | cons p rest ih =>
    obtain ⟨k, v⟩ := p
    simp only [List.lookup, List.cons_append] at h ⊢
    cases hak : a == k
    · rw [hak] at h
      exact ih h
    · rw [hak] at h
      exact h

lemma lookup_append_right {α β : Type} [BEq α] (l1 l2 : List (α × β)) (a : α)
    (h : l1.lookup a = none) : (l1 ++ l2).lookup a = l2.lookup a := by
  induction l1 with
  | nil => simp
  | cons p rest ih =>
    obtain ⟨k, v⟩ := p
    simp only [List.lookup, List.cons_append] at h ⊢
    cases hak : a == k
    · rw [hak] at h
      exact ih h
    · rw [hak] at h
      exact absurd h (by simp)

lemma arInsert_lookup_self (m : AllRec) (k : String) (v : RMap × List String) :
    (arInsert m k v).lookup k = some v := by
  induction m with
  | nil => simp [arInsert, List.lookup]
  | cons p rest ih =>
    obtain ⟨k0, v0⟩ := p
    simp only [arInsert]
    by_cases h : k0 = k
    · simp [h, List.lookup]
    · simp only [h, ite_false, List.lookup]
      have : (k == k0) = false := by
        simp [Ne.symm h]
      rw [this]
      exact ih

lemma arInsert_lookup_other (m : AllRec) (k : String) (v : RMap × List String)
    (k' : String) (h : k' ≠ k) : (arInsert m k v).lookup k' = m.lookup k' := by
  induction m with
  | nil =>
    have hb : (k' == k) = false := by simp [h]
    simp [arInsert, List.lookup, hb]
  | cons p rest ih =>
    obtain ⟨k0, v0⟩ := p
    simp only [arInsert]
    by_cases hk : k0 = k
    · subst hk
      simp only [ite_true, List.lookup]
      have : (k' == k0) = false := by simp [h]
      rw [this]
    · simp only [hk, ite_false, List.lookup]
      cases hk2 : k' == k0
      · exact ih
      · rfl

lemma cached_spec (g : RGraph) (fuel : Nat) (item : Node) (cache : WsCache)
    (r2 : RMap × List String) (cache2 : WsCache)
    (hinv : ∀ u rr, cache.lookup u = some rr →
      ∃ vis, get_full_recipe_with_subitems g fuel u [] = some (rr, vis))
    (hcc : get_full_recipe_cached g fuel item cache = some (r2, cache2)) :
    (∃ vis, get_full_recipe_with_subitems g fuel item [] = some (r2, vis)) ∧
    cache2.lookup item = some r2 ∧
    (∀ u rr, cache2.lookup u = some rr →
      ∃ vis, get_full_recipe_with_subitems g fuel u [] = some (rr, vis)) ∧
    (∀ u rr, cache.lookup u = some rr → cache2.lookup u = some rr) := by
  simp only [get_full_recipe_cached] at hcc
  rcases hlk : cache.lookup item with _ | r0 <;> rw [hlk] at hcc
  · rcases hws : get_full_recipe_with_subitems g fuel item []
      with _ | ⟨rr0, vv⟩ <;> rw [hws] at hcc
    · exact absurd hcc (by simp)
    · injection hcc with hcc
      injection hcc with h1 h2
      subst h1
      subst h2
      refine ⟨⟨vv, rfl⟩, ?_, ?_, ?_⟩
      · rw [lookup_append_right _ _ _ hlk]
        simp [List.lookup]
      · intro u rr h2
        rcases hlk2 : cache.lookup u with _ | rr1
        · rw [lookup_append_right _ _ _ hlk2] at h2
          simp only [List.lookup] at h2
          cases hbe : u == item <;> rw [hbe] at h2
          · exact absurd h2 (by simp)
          · injection h2 with h2
            subst h2
            have hu : u = item := eq_of_beq hbe
            subst hu
            exact ⟨vv, hws⟩
        · rw [lookup_append_some _ _ _ _ hlk2] at h2
          injection h2 with h2
          subst h2
          exact hinv _ _ hlk2
      · intro u rr h2
        exact lookup_append_some _ _ _ _ h2
  · injection hcc with hcc
    injection hcc with h1 h2
    subst h1
    subst h2
    exact ⟨hinv _ _ hlk, hlk, hinv, fun u rr h => h⟩

lemma buildAllGo_stable (g : RGraph) (fuel : Nat) (s0 : Node) (r : RMap × List String) :
    ∀ (l : List Node) (cache : WsCache) (acc d : AllRec),
      buildAllGo g fuel l cache acc = some d →
      acc.lookup (get_name_from_uri s0) = some r →
      cache.lookup s0 = some r →
      (∀ u rr, cache.lookup u = some rr →
        ∃ vis, get_full_recipe_with_subitems g fuel u [] = some (rr, vis)) →
      (∀ t ∈ l, isUriNode t = true →
        get_name_from_uri t = get_name_from_uri s0 → t = s0) →
      d.lookup (get_name_from_uri s0) = some r := by
  intro l
  induction l with
  | nil =>
    intro cache acc d h hacc _ _ _
    simp only [buildAllGo] at h
    injection h with h
    subst h
    exact hacc
  | cons t rest ih =>
    intro cache acc d h hacc hcache hinv hnames
    have hrest : ∀ t2 ∈ rest, isUriNode t2 = true →
        get_name_from_uri t2 = get_name_from_uri s0 → t2 = s0 :=
      fun t2 h2 => hnames t2 (List.mem_cons_of_mem _ h2)
    cases t with
    | lit n =>
      simp only [buildAllGo] at h
      exact ih cache acc d h hacc hcache hinv hrest
    | uri u =>
      simp only [buildAllGo] at h
      rcases hcc : get_full_recipe_cached g fuel (Node.uri u) cache
        with _ | ⟨r2, cache2⟩ <;> rw [hcc] at h
      · exact absurd h (by simp)
      rcases cached_spec g fuel _ _ _ _ hinv hcc with ⟨_, hself, hinv2, hkeep⟩
      by_cases hname : get_name_from_uri (Node.uri u) = get_name_from_uri s0
      · have hts : Node.uri u = s0 := hnames _ (List.mem_cons_self _ _) rfl hname
        have hr2 : r2 = r := by
          rw [hts] at hcc
          simp only [get_full_recipe_cached, hcache] at hcc
          injection hcc with hcc
          injection hcc with h1 _
          exact h1.symm
        have hacc2 : List.lookup (get_name_from_uri s0)
            (arInsert acc (get_name_from_uri (Node.uri u)) r2) = some r := by
          rw [hname, hr2]
          exact arInsert_lookup_self _ _ _
        exact ih cache2 _ d h hacc2 (hkeep _ _ hcache) hinv2 hrest
      · refine ih cache2 _ d h ?_ (hkeep _ _ hcache) hinv2 hrest
        rw [arInsert_lookup_other _ _ _ _ (fun he => hname he.symm)]
        exact hacc

lemma buildAllGo_fresh (g : RGraph) (fuel : Nat) :
    ∀ (l : List Node) (cache : WsCache) (acc d : AllRec) (s : Node),
      buildAllGo g fuel l cache acc = some d →
      (∀ u rr, cache.lookup u = some rr →
        ∃ vis, get_full_recipe_with_subitems g fuel u [] = some (rr, vis)) →
      s ∈ l → isUriNode s = true →
      (∀ t ∈ l, isUriNode t = true →
        get_name_from_uri t = get_name_from_uri s → t = s) →
      ∃ rr vis, get_full_recipe_with_subitems g fuel s [] = some (rr, vis) ∧
        d.lookup (get_name_from_uri s) = some rr := by
  intro l
  induction l with
  | nil => intro _ _ _ _ _ _ hs; cases hs
  | cons t rest ih =>
    intro cache acc d s h hinv hs hsu hnames
    have hrest : ∀ t2 ∈ rest, isUriNode t2 = true →
        get_name_from_uri t2 = get_name_from_uri s → t2 = s :=
      fun t2 h2 => hnames t2 (List.mem_cons_of_mem _ h2)
    cases t with
    | lit n =>
      simp only [buildAllGo] at h
      have hs2 : s ∈ rest := by
        rcases List.mem_cons.mp hs with he | hm
        · rw [he] at hsu
          simp [isUriNode] at hsu
        · exact hm
      exact ih cache acc d s h hinv hs2 hsu hrest
    | uri u =>
      simp only [buildAllGo] at h
      rcases hcc : get_full_recipe_cached g fuel (Node.uri u) cache
        with _ | ⟨r2, cache2⟩ <;> rw [hcc] at h
      · exact absurd h (by simp)
      rcases cached_spec g fuel _ _ _ _ hinv hcc with ⟨hfr, hself, hinv2, hkeep⟩
      rcases List.mem_cons.mp hs with he | hm
      · subst he
        rcases hfr with ⟨vis, hws⟩
        refine ⟨r2, vis, hws, ?_⟩
        exact buildAllGo_stable g fuel _ r2 rest cache2 _ d h
          (arInsert_lookup_self _ _ _) hself hinv2 hrest
      · exact ih cache2 _ d s h hinv2 hm hsu hrest

/-- C9 counterexample: the claim is false as stated when two DotaItem
subjects share a local name.  In `Gdup` the URIs `kg-dota#A` and `zz#A` both
have local name `A`; `build_all_recipes_with_subitems` keys results by local
name, so the second item's (leaf) result overwrites the first item's, and the
pair recorded under `A` is not the fresh result for `kg-dota#A`. -/
theorem C9_cache_counterexample :
    KGuri "A" ∈ subjectsPO Gdup rdfTypeP (KGuri "DotaItem") ∧
    isUriNode (KGuri "A") = true ∧
    build_all_recipes_with_subitems Gdup 6 = some [("A", ([("A", 1)], []))] ∧
    (get_full_recipe_with_subitems Gdup 6 (KGuri "A") []).map (fun p => p.1) =
      some ([("B", 1)], ["B"]) ∧
    (([("A", 1)], []) : RMap × List String) ≠ ([("B", 1)], ["B"]) :=
  ⟨by decide, by decide, by decide, by decide, by decide⟩

/-- C9 amended: for every graph whose DotaItem subjects have pairwise
distinct local names, the pair recorded for an item by
`build_all_recipes_with_subitems` is exactly the result of
`get_full_recipe_with_subitems` on that item with a fresh visited set: the
shared per-batch cache is consulted and filled only at the top level of each
query, so memoization never changes any returned result. -/
theorem C9_cache_amended (g : RGraph) (fuel : Nat) (d : AllRec) (s : Node)
    (hd : build_all_recipes_with_subitems g fuel = some d)
    (hs : s ∈ subjectsPO g rdfTypeP (KGuri "DotaItem"))
    (hsu : isUriNode s = true)
    (hinj : ∀ t ∈ subjectsPO g rdfTypeP (KGuri "DotaItem"), isUriNode t = true →
      get_name_from_uri t = get_name_from_uri s → t = s) :
    ∃ rr vis, get_full_recipe_with_subitems g fuel s [] = some (rr, vis) ∧
      d.lookup (get_name_from_uri s) = some rr :=
  buildAllGo_fresh g fuel _ [] [] d s hd
    (fun u rr h => by simp [List.lookup] at h) hs hsu hinj

/-- C9 witness: on the catalogue `Gabc` with distinct item names the recorded
entry for A is its fresh flattening result. -/
theorem C9_cache_witness :
    build_all_recipes_with_subitems Gabc 6 =
      some [("A", ([("B", 2), ("C", 1)], ["B", "C"])),
            ("B", ([("B", 1)], [])), ("C", ([("C", 1)], []))] ∧
    KGuri "A" ∈ subjectsPO Gabc rdfTypeP (KGuri "DotaItem") ∧
    (∃ rr vis, get_full_recipe_with_subitems Gabc 6 (KGuri "A") [] = some (rr, vis) ∧
      List.lookup (get_name_from_uri (KGuri "A"))
        [("A", ([("B", 2), ("C", 1)], ["B", "C"])),
         ("B", ([("B", 1)], [])), ("C", ([("C", 1)], []))] = some rr) :=
  ⟨by decide, by decide,
    C9_cache_amended Gabc 6
      [("A", ([("B", 2), ("C", 1)], ["B", "C"])),
       ("B", ([("B", 1)], [])), ("C", ([("C", 1)], []))]
      (KGuri "A") (by decide) (by decide) (by decide) (by decide)⟩

lemma pyLower_append (s t : String) :
    (pyLower (s ++ t)).data = (pyLower s).data ++ (pyLower t).data := by
  simp [pyLower, String.data_append]

lemma containsRecipeCI_append_recipe (s : String) :
    containsRecipeCI (s ++ " Recipe") = true := by
  simp only [containsRecipeCI, decide_eq_true_eq]
  have h1 : ("recipe".data : List Char) <:+ (pyLower " Recipe").data := by decide
  have h2 : (pyLower " Recipe").data <:+ (pyLower (s ++ " Recipe")).data := by
    rw [pyLower_append]
    exact List.suffix_append _ _
  exact (h1.trans h2).isInfix

lemma endsWith_recipe_contains (r : String) (h : pyEndsWith r "Recipe" = true) :
    containsRecipeCI r = true := by
  simp only [pyEndsWith] at h
  have hs : ("Recipe".data : List Char) <:+ r.data := List.isSuffixOf_iff_suffix.mp h
  simp only [containsRecipeCI, decide_eq_true_eq]
  have hm : ("Recipe".data.map Char.toLower : List Char) <:+ r.data.map Char.toLower :=
    hs.map _
  have he : ("Recipe".data.map Char.toLower : List Char) = "recipe".data := by decide
  rw [he] at hm
  show ("recipe".data : List Char) <:+: (pyLower r).data
  exact hm.isInfix

lemma append_recipe_inj (s1 s2 : String) (h : s1 ++ " Recipe" = s2 ++ " Recipe") :
    s1 = s2 := by
  have h2 := congrArg String.data h
  rw [String.data_append, String.data_append] at h2
  exact String.ext (List.append_cancel_right h2)

lemma endsWith_append_recipe (s : String) :
    pyEndsWith (s ++ " Recipe") "Recipe" = true := by
  simp only [pyEndsWith]
  apply List.isSuffixOf_iff_suffix.mpr
  rw [String.data_append]
  have h1 : ("Recipe".data : List Char) <:+ (" Recipe" : String).data := by decide
  exact h1.trans (List.suffix_append _ _)

lemma ne_append_recipe (s : String) (hci : containsRecipeCI s = false) :
    s ≠ s ++ " Recipe" := by
  intro he
  rw [he, containsRecipeCI_append_recipe] at hci
  simp at hci

lemma dinsert_lookup_self (m : Catalogue) (k : String) (v : DotaItem) :
    (dinsert m k v).lookup k = some v := by
  induction m with
  | nil => simp [dinsert, List.lookup]
  | cons p rest ih =>
    obtain ⟨k0, v0⟩ := p
    simp only [dinsert]
    by_cases h : k0 = k
    · simp [h, List.lookup]
    · simp only [h, ite_false, List.lookup]
      have hb : (k == k0) = false := by simp [Ne.symm h]
      rw [hb]
      exact ih

lemma dinsert_lookup_other (m : Catalogue) (k : String) (v : DotaItem)
    (k' : String) (h : k' ≠ k) : (dinsert m k v).lookup k' = m.lookup k' := by
  induction m with
  | nil =>
    have hb : (k' == k) = false := by simp [h]
    simp [dinsert, List.lookup, hb]
  | cons p rest ih =>
    obtain ⟨k0, v0⟩ := p
    simp only [dinsert]
    by_cases hk : k0 = k
    · subst hk
      simp only [ite_true, List.lookup]
      have hb : (k' == k0) = false := by simp [h]
      rw [hb]
    · simp only [hk, ite_false, List.lookup]
      cases hk2 : k' == k0
      · exact ih
      · rfl

lemma dinsert_keys_mem (m : Catalogue) (k : String) (v : DotaItem) (a : String) :
    a ∈ (dinsert m k v).map Prod.fst ↔ a ∈ m.map Prod.fst ∨ a = k := by
  induction m with
  | nil => simp [dinsert]
  | cons p rest ih =>
    obtain ⟨k0, v0⟩ := p
    simp only [dinsert]
    by_cases h : k0 = k
    · subst h
      simp only [List.map, List.mem_cons]
      constructor
      · rintro (he | hm)
        · exact Or.inr he
        · exact Or.inl (Or.inr hm)
      · rintro ((he | hm) | he)
        · exact Or.inl he
        · exact Or.inr hm
        · exact Or.inl he
    · simp only [h, ite_false, List.map, List.mem_cons, ih]
      tauto

lemma dinsert_keys_nodup (m : Catalogue) (k : String) (v : DotaItem)
    (h : (m.map Prod.fst).Nodup) : ((dinsert m k v).map Prod.fst).Nodup := by
  induction m with
  | nil => simp [dinsert]
  | cons p rest ih =>
    obtain ⟨k0, v0⟩ := p
    simp only [List.map, List.nodup_cons] at h
    simp only [dinsert]
    by_cases hk : k0 = k
    · simp only [hk, ite_true, List.map, List.nodup_cons]
      exact ⟨hk ▸ h.1, h.2⟩
    · simp only [hk, ite_false, List.map, List.nodup_cons]
      refine ⟨?_, ih h.2⟩
      rw [dinsert_keys_mem]
      rintro (hm | he)
      · exact h.1 hm
      · exact hk he

lemma lookup_mem {α β : Type} [BEq α] [LawfulBEq α] (l : List (α × β)) (a : α) (b : β)
    (h : l.lookup a = some b) : (a, b) ∈ l := by
  induction l with
  | nil => simp [List.lookup] at h
  | cons p rest ih =>
    obtain ⟨k, v⟩ := p
    simp only [List.lookup] at h
    cases hak : a == k <;> rw [hak] at h
    · exact List.mem_cons_of_mem _ (ih h)
    · injection h with h
      subst h
      have hk : a = k := eq_of_beq hak
      subst hk
      exact List.mem_cons_self _ _

lemma mem_lookup_nodup {α β : Type} [BEq α] [LawfulBEq α] (l : List (α × β)) (a : α)
    (b : β) (hnd : (l.map Prod.fst).Nodup) (h : (a, b) ∈ l) : l.lookup a = some b := by
  induction l with
  | nil => cases h
  | cons p rest ih =>
    obtain ⟨k, v⟩ := p
    simp only [List.map, List.nodup_cons] at hnd
    rcases List.mem_cons.mp h with he | hm
    · rw [Prod.mk.injEq] at he
      obtain ⟨rfl, rfl⟩ := he
      simp [List.lookup]
    · have hak : (a == k) = false := by
        by_cases heq : a = k
        · subst heq
          exact absurd (List.mem_map.mpr ⟨(a, b), hm, rfl⟩) hnd.1
        · simp [heq]
      simp only [List.lookup, hak]
      exact ih hnd.2 hm

lemma sortInsert_perm (x : String × DotaItem) (l : Catalogue) :
    List.Perm (sortInsert x l) (x :: l) := by
  induction l with
  | nil => simp [sortInsert]
  | cons y ys ih =>
    simp only [sortInsert]
    by_cases h : pairLe x y = true
    · simp [h]
    · simp only [h, ite_false]
      exact (ih.cons y).trans (List.Perm.swap x y ys)

lemma sortCat_perm (l : Catalogue) : List.Perm (sortCat l) l := by
  induction l with
  | nil => simp [sortCat]
  | cons x xs ih => exact (sortInsert_perm x (sortCat xs)).trans (ih.cons x)

lemma sortCat_mem (l : Catalogue) (p : String × DotaItem) :
    p ∈ sortCat l ↔ p ∈ l := (sortCat_perm l).mem_iff

lemma sortCat_keys_nodup (l : Catalogue) (h : (l.map Prod.fst).Nodup) :
    ((sortCat l).map Prod.fst).Nodup :=
  (((sortCat_perm l).map Prod.fst).nodup_iff).mpr h

lemma expandGo_frame (orig : Catalogue) (k : String) :
    ∀ (l : List (String × DotaItem)) (ans ans' : Catalogue),
      expandGo orig l ans = some ans' →
      (∀ p ∈ l, (containsRecipeCI p.1 = true ∨ p.1 ≠ k) ∧ p.1 ++ " Recipe" ≠ k) →
      ans'.lookup k = ans.lookup k := by
  intro l
  induction l with
  | nil =>
    intro ans ans' h _
    simp only [expandGo] at h
    injection h with h
    subst h
    rfl
  | cons p rest ih =>
    intro ans ans' h hcond
    obtain ⟨name, it⟩ := p
    have hrest := fun p hp => hcond p (List.mem_cons_of_mem _ hp)
    rcases hcond (name, it) (List.mem_cons_self _ _) with ⟨hn, hrn⟩
    simp only [expandGo] at h
    by_cases hci : containsRecipeCI name = true
    · rw [if_pos hci] at h
      exact ih _ _ h hrest
    · rw [if_neg hci] at h
      have hnk : name ≠ k := by
        rcases hn with h1 | h1
        · exact absurd h1 hci
        · exact h1
      by_cases hcr : it.recipe ≠ [] ∧ it.recipe.any containsRecipeCI = true
      · rw [if_pos hcr] at h
        split at h
        · exact absurd h (by simp)
        · rw [ih _ _ h hrest, dinsert_lookup_other _ _ _ _ (Ne.symm hnk),
            dinsert_lookup_other _ _ _ _ (fun he => hrn he.symm)]
      · rw [if_neg hcr] at h
        rw [ih _ _ h hrest, dinsert_lookup_other _ _ _ _ (Ne.symm hnk)]

lemma expandGo_keys_nodup (orig : Catalogue) :
    ∀ (l : List (String × DotaItem)) (ans ans' : Catalogue),
      expandGo orig l ans = some ans' →
      (ans.map Prod.fst).Nodup → (ans'.map Prod.fst).Nodup := by
  intro l
  induction l with
  | nil =>
    intro ans ans' h hnd
    simp only [expandGo] at h
    injection h with h
    subst h
    exact hnd
  | cons p rest ih =>
    intro ans ans' h hnd
    obtain ⟨name, it⟩ := p
    simp only [expandGo] at h
    by_cases hci : containsRecipeCI name = true
    · rw [if_pos hci] at h
      exact ih _ _ h hnd
    · rw [if_neg hci] at h
      by_cases hcr : it.recipe ≠ [] ∧ it.recipe.any containsRecipeCI = true
      · rw [if_pos hcr] at h
        split at h
        · exact absurd h (by simp)
        · exact ih _ _ h (dinsert_keys_nodup _ _ _ (dinsert_keys_nodup _ _ _ hnd))
      · rw [if_neg hcr] at h
        exact ih _ _ h (dinsert_keys_nodup _ _ _ hnd)

lemma expandGo_write (orig : Catalogue) :
    ∀ (l : List (String × DotaItem)) (ans ans' : Catalogue) (name : String) (it : DotaItem),
      expandGo orig l ans = some ans' →
      (l.map Prod.fst).Nodup →
      (name, it) ∈ l →
      containsRecipeCI name = false →
      ans'.lookup name = some
        (if it.recipe ≠ [] ∧ it.recipe.any containsRecipeCI = true then
          { it with recipe :=
              it.recipe.map (fun r => if r = "Recipe" then name ++ " Recipe" else r) }
         else it) := by
  intro l
  induction l with
  | nil => intro ans ans' name it _ _ hmem; cases hmem
  | cons p rest ih =>
    intro ans ans' name it h hnd hmem hci
    obtain ⟨n0, it0⟩ := p
    simp only [List.map, List.nodup_cons] at hnd
    rcases List.mem_cons.mp hmem with he | hm
    · rw [Prod.mk.injEq] at he
      obtain ⟨rfl, rfl⟩ := he
      simp only [expandGo] at h
      rw [if_neg (by simp [hci])] at h
      have hframe : ∀ p ∈ rest,
          (containsRecipeCI p.1 = true ∨ p.1 ≠ name) ∧ p.1 ++ " Recipe" ≠ name := by
        intro p hp
        constructor
        · right
          intro he2
          exact hnd.1 (List.mem_map.mpr ⟨p, hp, he2⟩)
        · intro he2
          rw [← he2, containsRecipeCI_append_recipe] at hci
          simp at hci
      by_cases hcr : it.recipe ≠ [] ∧ it.recipe.any containsRecipeCI = true
      · rw [if_pos hcr] at h
        rw [if_pos hcr]
        split at h
        · exact absurd h (by simp)
        · rw [expandGo_frame orig name rest _ _ h hframe,
            dinsert_lookup_self]
      · rw [if_neg hcr] at h
        rw [if_neg hcr]
        rw [expandGo_frame orig name rest _ _ h hframe, dinsert_lookup_self]
    · simp only [expandGo] at h
      by_cases hci0 : containsRecipeCI n0 = true
      · rw [if_pos hci0] at h
        exact ih _ _ _ _ h hnd.2 hm hci
      · rw [if_neg hci0] at h
        by_cases hcr0 : it0.recipe ≠ [] ∧ it0.recipe.any containsRecipeCI = true
        · rw [if_pos hcr0] at h
          split at h
          · exact absurd h (by simp)
          · exact ih _ _ _ _ h hnd.2 hm hci
        · rw [if_neg hcr0] at h
          exact ih _ _ _ _ h hnd.2 hm hci

lemma expandGo_write_node (orig : Catalogue) :
    ∀ (l : List (String × DotaItem)) (ans ans' : Catalogue) (name : String) (it : DotaItem),
      expandGo orig l ans = some ans' →
      (l.map Prod.fst).Nodup →
      (name, it) ∈ l →
      containsRecipeCI name = false →
      it.recipe ≠ [] → it.recipe.any containsRecipeCI = true →
      ∃ s, sumCosts orig ((it.recipe.map
          (fun r => if r = "Recipe" then name ++ " Recipe" else r)).filter
            (fun r => r ≠ name ++ " Recipe")) = some s ∧
        ans'.lookup (name ++ " Recipe") = some
          { name := name ++ " Recipe", image := recipeImageUrl, url := it.url,
            cost := it.cost - s, recipe := [], order := 0 } := by
  intro l
  induction l with
  | nil => intro ans ans' name it _ _ hmem; cases hmem
  | cons p rest ih =>
    intro ans ans' name it h hnd hmem hci hne hany
    obtain ⟨n0, it0⟩ := p
    simp only [List.map, List.nodup_cons] at hnd
    rcases List.mem_cons.mp hmem with he | hm
    · rw [Prod.mk.injEq] at he
      obtain ⟨rfl, rfl⟩ := he
      simp only [expandGo] at h
      rw [if_neg (by simp [hci]), if_pos ⟨hne, hany⟩] at h
      have hframe : ∀ p ∈ rest,
          (containsRecipeCI p.1 = true ∨ p.1 ≠ name ++ " Recipe") ∧
            p.1 ++ " Recipe" ≠ name ++ " Recipe" := by
        intro p hp
        constructor
        · by_cases hc : containsRecipeCI p.1 = true
          · exact Or.inl hc
          · right
            intro he2
            rw [he2, containsRecipeCI_append_recipe] at hc
            simp at hc
        · intro he2
          exact hnd.1 (List.mem_map.mpr ⟨p, hp, append_recipe_inj _ _ he2⟩)
      split at h
      · exact absurd h (by simp)
      · next s hsum =>
        refine ⟨s, hsum, ?_⟩
        rw [expandGo_frame orig (name ++ " Recipe") rest _ _ h hframe,
          dinsert_lookup_other _ _ _ _ (Ne.symm (ne_append_recipe name hci)),
          dinsert_lookup_self]
    · simp only [expandGo] at h
      by_cases hci0 : containsRecipeCI n0 = true
      · rw [if_pos hci0] at h
        exact ih _ _ _ _ h hnd.2 hm hci hne hany
      · rw [if_neg hci0] at h
        by_cases hcr0 : it0.recipe ≠ [] ∧ it0.recipe.any containsRecipeCI = true
        · rw [if_pos hcr0] at h
          split at h
          · exact absurd h (by simp)
          · exact ih _ _ _ _ h hnd.2 hm hci hne hany
        · rw [if_neg hcr0] at h
          exact ih _ _ _ _ h hnd.2 hm hci hne hany

lemma collapseGo_frame (k : String) :
    ∀ (l : List (String × DotaItem)) (ans : Catalogue),
      (∀ p ∈ l, containsRecipeCI p.1 = true ∨ p.1 ≠ k) →
      (collapseGo l ans).lookup k = ans.lookup k := by
  intro l
  induction l with
  | nil => intro ans _; rfl
  | cons p rest ih =>
    intro ans hcond
    obtain ⟨n0, it0⟩ := p
    have hrest := fun p hp => hcond p (List.mem_cons_of_mem _ hp)
    simp only [collapseGo]
    by_cases hci : containsRecipeCI n0 = true
    · rw [if_pos hci]
      exact ih _ hrest
    · rw [if_neg hci]
      have hnk : n0 ≠ k := by
        rcases hcond (n0, it0) (List.mem_cons_self _ _) with h1 | h1
        · exact absurd h1 hci
        · exact h1
      rw [ih _ hrest, dinsert_lookup_other _ _ _ _ (Ne.symm hnk)]

lemma collapseGo_lookup (k : String) (hk : containsRecipeCI k = false) :
    ∀ (l : List (String × DotaItem)) (ans : Catalogue) (it : DotaItem),
      (l.map Prod.fst).Nodup → l.lookup k = some it →
      (collapseGo l ans).lookup k = some (collapseItem it) := by
  intro l
  induction l with
  | nil => intro ans it _ h; simp [List.lookup] at h
  | cons p rest ih =>
    intro ans it hnd h
    obtain ⟨n0, it0⟩ := p
    simp only [List.map, List.nodup_cons] at hnd
    simp only [List.lookup] at h
    cases hkn : k == n0 <;> rw [hkn] at h
    · simp only [collapseGo]
      by_cases hci : containsRecipeCI n0 = true
      · rw [if_pos hci]
        exact ih _ _ hnd.2 h
      · rw [if_neg hci]
        exact ih _ _ hnd.2 h
    · injection h with h
      subst h
      have hkeq : k = n0 := eq_of_beq hkn
      subst hkeq
      simp only [collapseGo]
      rw [if_neg (by simp [hk])]
      have hframe : ∀ p ∈ rest, containsRecipeCI p.1 = true ∨ p.1 ≠ k := by
        intro p hp
        right
        intro he
        exact hnd.1 (List.mem_map.mpr ⟨p, hp, he⟩)
      rw [collapseGo_frame k rest _ hframe, dinsert_lookup_self]

/-- C2 counterexample: the claim is false as stated.  On `catC2` (item X with
recipe [Foo Recipe], plus the catalogue entry "Foo Recipe"), Expand drops the
"Foo Recipe" entry (its name contains "recipe") and Collapse then rewrites
X's component "Foo Recipe" — which ends in "Recipe" without being the generic
placeholder — into "Recipe", so the round trip neither keeps every original
item nor restores X's recipe list. -/
theorem C2_roundtrip_counterexample :
    (set_distinct_recipes catC2).map remove_distinct_recipes =
      some [("X", mkItem "X" 100 ["Recipe"] 1)] ∧
    ("Foo Recipe", mkItem "Foo Recipe" 10 [] 0) ∈ catC2 ∧
    ((set_distinct_recipes catC2).map remove_distinct_recipes).map
      (fun d => d.lookup "Foo Recipe") = some none ∧
    catC2.lookup "X" = some (mkItem "X" 100 ["Foo Recipe"] 1) ∧
    (["Recipe"] : List String) ≠ ["Foo Recipe"] :=
  ⟨by decide, by decide, by decide, by decide, by decide⟩

/-- C2 amended: for every catalogue with unique keys on which Expand
succeeds, and for every item whose name does not contain "recipe"
case-insensitively and whose recipe components are each either the generic
placeholder "Recipe" or a name not ending in "Recipe", the item is present in
`Collapse (Expand catalogue)` under its original key with exactly its
original recipe list (derived cost values on the discarded recipe nodes need
not round-trip). -/
theorem C2_roundtrip_amended (cat ans : Catalogue) (name : String) (it : DotaItem)
    (hnd : (cat.map Prod.fst).Nodup)
    (hexp : set_distinct_recipes cat = some ans)
    (hlk : cat.lookup name = some it)
    (hci : containsRecipeCI name = false)
    (hcomps : ∀ c ∈ it.recipe, c = "Recipe" ∨ pyEndsWith c "Recipe" = false) :
    ∃ it', (remove_distinct_recipes ans).lookup name = some it' ∧
      it'.recipe = it.recipe := by
  have hmem : (name, it) ∈ cat := lookup_mem _ _ _ hlk
  have hmem2 : (name, it) ∈ sortCat cat := (sortCat_mem cat _).mpr hmem
  have hnd2 := sortCat_keys_nodup cat hnd
  unfold set_distinct_recipes at hexp
  have hw := expandGo_write cat (sortCat cat) [] ans name it hexp hnd2 hmem2 hci
  have hansnd : (ans.map Prod.fst).Nodup :=
    expandGo_keys_nodup cat _ [] ans hexp (by simp)
  have hcol := collapseGo_lookup name hci ans [] _ hansnd hw
  refine ⟨_, hcol, ?_⟩
  by_cases hcr : it.recipe ≠ [] ∧ it.recipe.any containsRecipeCI = true
  · rw [if_pos hcr]
    have hne2 : it.recipe.map
        (fun r => if r = "Recipe" then name ++ " Recipe" else r) ≠ [] := by
      intro he
      exact hcr.1 (List.map_eq_nil_iff.mp he)
    simp only [collapseItem, hne2, ne_eq, not_true_eq_false, not_false_eq_true, ite_true]
    show List.map _ (List.map _ it.recipe) = it.recipe
    rw [List.map_map]
    have hid : ∀ c ∈ it.recipe,
        ((fun r => if pyEndsWith r "Recipe" = true then "Recipe" else r) ∘
          (fun r => if r = "Recipe" then name ++ " Recipe" else r)) c = c := by
      intro c hc
      rcases hcomps c hc with hc1 | hc1
      · simp [hc1, endsWith_append_recipe]
      · by_cases hc2 : c = "Recipe"
        · simp [hc2, endsWith_append_recipe]
        · simp [hc2, hc1]
    rw [List.map_congr_left hid]
    simp
  · rw [if_neg hcr]
    simp only [collapseItem]
    by_cases hne : it.recipe ≠ []
    · have hnoany : it.recipe.any containsRecipeCI = false := by
        cases hx : it.recipe.any containsRecipeCI
        · rfl
        · exact absurd ⟨hne, hx⟩ hcr
      rw [if_pos hne]
      show List.map _ it.recipe = it.recipe
      have hid : ∀ c ∈ it.recipe,
          (if pyEndsWith c "Recipe" = true then "Recipe" else c) = c := by
        intro c hc
        have : containsRecipeCI c = false := by
          cases hy : containsRecipeCI c
          · rfl
          · exact absurd (List.any_eq_true.mpr ⟨c, hc, hy⟩) (by simp [hnoany])
        have hend : pyEndsWith c "Recipe" = false := by
          cases hz : pyEndsWith c "Recipe"
          · rfl
          · rw [endsWith_recipe_contains c hz] at this
            simp at this
        simp [hend]
      rw [List.map_congr_left hid]
      simp
    · rw [if_neg hne]

/-- C2 witness: the D/E catalogue round-trips: D is present after
Collapse (Expand) with its original recipe list [Recipe, E]. -/
theorem C2_roundtrip_witness :
    (catDE.map Prod.fst).Nodup ∧
    set_distinct_recipes catDE = some
      [("E", mkItem "E" 200 [] 0),
       ("D Recipe", { name := "D Recipe", image := recipeImageUrl, url := "",
                      cost := 300, recipe := [], order := 0 }),
       ("D", mkItem "D" 500 ["D Recipe", "E"] 1)] ∧
    catDE.lookup "D" = some (mkItem "D" 500 ["Recipe", "E"] 1) ∧
    (∃ it', (remove_distinct_recipes
        [("E", mkItem "E" 200 [] 0),
         ("D Recipe", { name := "D Recipe", image := recipeImageUrl, url := "",
                        cost := 300, recipe := [], order := 0 }),
         ("D", mkItem "D" 500 ["D Recipe", "E"] 1)]).lookup "D" = some it' ∧
      it'.recipe = (mkItem "D" 500 ["Recipe", "E"] 1).recipe) :=
  ⟨by decide, by decide, by decide,
    C2_roundtrip_amended catDE _ "D" (mkItem "D" 500 ["Recipe", "E"] 1)
      (by decide) (by decide) (by decide) (by decide) (by decide)⟩

lemma filter_map_placeholder (name : String) (l : List String) :
    (l.map (fun r => if r = "Recipe" then name ++ " Recipe" else r)).filter
      (fun r => r ≠ name ++ " Recipe") =
    l.filter (fun c => c ≠ "Recipe" ∧ c ≠ name ++ " Recipe") := by
  induction l with
  | nil => rfl
  | cons c rest ih =>
    simp only [List.map, List.filter_cons]
    by_cases h1 : c = "Recipe"
    · simp [h1] at ih ⊢
      exact ih
    · by_cases h2 : c = name ++ " Recipe"
      · simp [h1, h2] at ih ⊢
        exact ih
      · simp [h1, h2] at ih ⊢
        exact ih

/-- C7 counterexample: the claim is false as stated on `catC7`.  The item
"Bad recipe holder" has the placeholder in its recipe, yet Expand creates no
"Bad recipe holder Recipe" node (the item's own name contains "recipe", so
the whole entry is skipped and dropped); and for X with recipe
[Recipe, Foo Recipe, E] the created node's cost subtracts the recipe-named
component "Foo Recipe" as well (290), not only the non-recipe-named
components as claimed (500 − 200 = 300). -/
theorem C7_expand_counterexample :
    catC7.lookup "Bad recipe holder" =
      some (mkItem "Bad recipe holder" 500 ["Recipe", "E"] 1) ∧
    (set_distinct_recipes catC7).map (fun d => d.lookup "Bad recipe holder Recipe") =
      some none ∧
    (set_distinct_recipes catC7).map (fun d => d.lookup "Bad recipe holder") =
      some none ∧
    (set_distinct_recipes catC7).map (fun d => (d.lookup "X Recipe").map DotaItem.cost) =
      some (some 290) ∧
    (290 : Int) ≠ 500 - 200 :=
  ⟨by decide, by decide, by decide, by decide, by decide⟩

/-- C7 amended: for every catalogue with unique keys on which Expand
succeeds and every item whose name does not contain "recipe"
case-insensitively and whose recipe contains the generic placeholder
"Recipe", Expand replaces every placeholder occurrence with "{item} Recipe"
and inserts a new zero-recipe item of that name whose cost is the item's cost
minus the sum of the costs of all other components of its recipe — all
components except the placeholder occurrences and any component already
spelled "{item} Recipe" (recipe-named components such as "Foo Recipe" are
included in the sum). -/
theorem C7_expand_amended (cat ans : Catalogue) (name : String) (it : DotaItem)
    (hnd : (cat.map Prod.fst).Nodup)
    (hexp : set_distinct_recipes cat = some ans)
    (hlk : cat.lookup name = some it)
    (hci : containsRecipeCI name = false)
    (hrec : "Recipe" ∈ it.recipe) :
    ∃ s, sumCosts cat (it.recipe.filter
        (fun c => c ≠ "Recipe" ∧ c ≠ name ++ " Recipe")) = some s ∧
      ans.lookup (name ++ " Recipe") = some
        { name := name ++ " Recipe", image := recipeImageUrl, url := it.url,
          cost := it.cost - s, recipe := [], order := 0 } ∧
      ans.lookup name = some
        { it with recipe :=
            it.recipe.map (fun r => if r = "Recipe" then name ++ " Recipe" else r) } := by
  have hmem : (name, it) ∈ cat := lookup_mem _ _ _ hlk
  have hmem2 : (name, it) ∈ sortCat cat := (sortCat_mem cat _).mpr hmem
  have hnd2 := sortCat_keys_nodup cat hnd
  unfold set_distinct_recipes at hexp
  have hne : it.recipe ≠ [] := List.ne_nil_of_mem hrec
  have hany : it.recipe.any containsRecipeCI = true :=
    List.any_eq_true.mpr ⟨"Recipe", hrec, by decide⟩
  rcases expandGo_write_node cat (sortCat cat) [] ans name it hexp hnd2 hmem2 hci hne hany
    with ⟨s, hsum, hnode⟩
  rw [filter_map_placeholder] at hsum
  refine ⟨s, hsum, hnode, ?_⟩
  have hw := expandGo_write cat (sortCat cat) [] ans name it hexp hnd2 hmem2 hci
  rw [if_pos ⟨hne, hany⟩] at hw
  exact hw

/-- C7 witness: the concrete D/E scenario.  After Expand, the node "D Recipe"
exists with cost 500 − 200 = 300 and empty recipe, and D's recipe becomes
[D Recipe, E]. -/
theorem C7_expand_witness :
    (catDE.map Prod.fst).Nodup ∧
    catDE.lookup "D" = some (mkItem "D" 500 ["Recipe", "E"] 1) ∧
    "Recipe" ∈ (mkItem "D" 500 ["Recipe", "E"] 1).recipe ∧
    (∃ s, sumCosts catDE ((mkItem "D" 500 ["Recipe", "E"] 1).recipe.filter
        (fun c => c ≠ "Recipe" ∧ c ≠ "D" ++ " Recipe")) = some s ∧
      ([("E", mkItem "E" 200 [] 0),
        ("D Recipe", { name := "D Recipe", image := recipeImageUrl, url := "",
                       cost := 300, recipe := [], order := 0 }),
        ("D", mkItem "D" 500 ["D Recipe", "E"] 1)] : Catalogue).lookup
          ("D" ++ " Recipe") = some
        { name := "D" ++ " Recipe", image := recipeImageUrl, url := "",
          cost := 500 - s, recipe := [], order := 0 } ∧
      ([("E", mkItem "E" 200 [] 0),
        ("D Recipe", { name := "D Recipe", image := recipeImageUrl, url := "",
                       cost := 300, recipe := [], order := 0 }),
        ("D", mkItem "D" 500 ["D Recipe", "E"] 1)] : Catalogue).lookup "D" = some
        { (mkItem "D" 500 ["Recipe", "E"] 1) with recipe :=
            (mkItem "D" 500 ["Recipe", "E"] 1).recipe.map (fun r => if r = "Recipe" then "D" ++ " Recipe" else r) }) :=
  ⟨by decide, by decide, by decide,
    C7_expand_amended catDE
      [("E", mkItem "E" 200 [] 0),
       ("D Recipe", { name := "D Recipe", image := recipeImageUrl, url := "",
                      cost := 300, recipe := [], order := 0 }),
       ("D", mkItem "D" 500 ["D Recipe", "E"] 1)]
      "D" (mkItem "D" 500 ["Recipe", "E"] 1)
      (by decide) (by decide) (by decide) (by decide) (by decide)⟩

lemma expandGo_keys (orig : Catalogue) :
    ∀ (l : List (String × DotaItem)) (ans ans' : Catalogue),
      expandGo orig l ans = some ans' →
      ∀ k, (k ∈ ans'.map Prod.fst ↔
        (k ∈ ans.map Prod.fst ∨ ∃ p, p ∈ l ∧ containsRecipeCI p.1 = false ∧
          (k = p.1 ∨ (p.2.recipe ≠ [] ∧ p.2.recipe.any containsRecipeCI = true ∧
            k = p.1 ++ " Recipe")))) := by
  intro l
  induction l with
  | nil =>
    intro ans ans' h k
    simp only [expandGo] at h
    injection h with h
    subst h
    simp
  | cons p rest ih =>
    intro ans ans' h k
    obtain ⟨n0, it0⟩ := p
    simp only [expandGo] at h
    by_cases hci : containsRecipeCI n0 = true
    · rw [if_pos hci] at h
      rw [ih _ _ h k]
      constructor
      · rintro (hk | ⟨p, hp, hq⟩)
        · exact Or.inl hk
        · exact Or.inr ⟨p, List.mem_cons_of_mem _ hp, hq⟩
      · rintro (hk | ⟨p, hp, hq⟩)
        · exact Or.inl hk
        · rcases List.mem_cons.mp hp with he | hm
          · subst he
            rw [hci] at hq
            simp at hq
          · exact Or.inr ⟨p, hm, hq⟩
    · rw [if_neg hci] at h
      have hcif : containsRecipeCI n0 = false := by
        cases hx : containsRecipeCI n0
        · rfl
        · exact absurd hx hci
      by_cases hcr : it0.recipe ≠ [] ∧ it0.recipe.any containsRecipeCI = true
      · rw [if_pos hcr] at h
        split at h
        · exact absurd h (by simp)
        · rw [ih _ _ h k, dinsert_keys_mem, dinsert_keys_mem]
          constructor
          · rintro (((hk | hk) | hk) | ⟨p, hp, hq⟩)
            · exact Or.inl hk
            · exact Or.inr ⟨(n0, it0), List.mem_cons_self _ _, hcif,
                Or.inr ⟨hcr.1, hcr.2, hk⟩⟩
            · exact Or.inr ⟨(n0, it0), List.mem_cons_self _ _, hcif, Or.inl hk⟩
            · exact Or.inr ⟨p, List.mem_cons_of_mem _ hp, hq⟩
          · rintro (hk | ⟨p, hp, hq⟩)
            · exact Or.inl (Or.inl (Or.inl hk))
            · rcases List.mem_cons.mp hp with he | hm
              · subst he
                rcases hq.2 with hk | hk
                · exact Or.inl (Or.inr hk)
                · exact Or.inl (Or.inl (Or.inr hk.2.2))
              · exact Or.inr ⟨p, hm, hq⟩
      · rw [if_neg hcr] at h
        rw [ih _ _ h k, dinsert_keys_mem]
        constructor
        · rintro ((hk | hk) | ⟨p, hp, hq⟩)
          · exact Or.inl hk
          · exact Or.inr ⟨(n0, it0), List.mem_cons_self _ _, hcif, Or.inl hk⟩
          · exact Or.inr ⟨p, List.mem_cons_of_mem _ hp, hq⟩
        · rintro (hk | ⟨p, hp, hq⟩)
          · exact Or.inl (Or.inl hk)
          · rcases List.mem_cons.mp hp with he | hm
            · subst he
              rcases hq.2 with hk | hk
              · exact Or.inl (Or.inr hk)
              · exact absurd ⟨hk.1, hk.2.1⟩ hcr
            · exact Or.inr ⟨p, hm, hq⟩

/-- C10: the key set of Expand's output is exactly the input keys whose
lowercase name does not contain "recipe", plus the generated "{item} Recipe"
nodes (one for each kept item whose non-empty recipe has a component
containing "recipe" case-insensitively): every pre-existing entry whose name
contains "recipe" case-insensitively is removed, and every other entry is
present under its original key. -/
theorem C10_expand_keys (cat ans : Catalogue)
    (hexp : set_distinct_recipes cat = some ans) (k : String) :
    k ∈ ans.map Prod.fst ↔
      ((k ∈ cat.map Prod.fst ∧ containsRecipeCI k = false) ∨
       ∃ p, p ∈ cat ∧ containsRecipeCI p.1 = false ∧ p.2.recipe ≠ [] ∧
         p.2.recipe.any containsRecipeCI = true ∧ k = p.1 ++ " Recipe") := by
  unfold set_distinct_recipes at hexp
  rw [expandGo_keys cat _ _ _ hexp k]
  simp only [List.map_nil, List.not_mem_nil, false_or]
  constructor
  · rintro ⟨p, hp, hcif, hq⟩
    rw [sortCat_mem] at hp
    rcases hq with hk | hk
    · subst hk
      exact Or.inl ⟨List.mem_map.mpr ⟨p, hp, rfl⟩, hcif⟩
    · exact Or.inr ⟨p, hp, hcif, hk.1, hk.2.1, hk.2.2⟩
  · rintro (⟨hk, hcif⟩ | ⟨p, hp, hcif, h1, h2, h3⟩)
    · rcases List.mem_map.mp hk with ⟨p, hp, he⟩
      exact ⟨p, (sortCat_mem cat p).mpr hp, he ▸ hcif, Or.inl he.symm⟩
    · exact ⟨p, (sortCat_mem cat p).mpr hp, hcif, Or.inr ⟨h1, h2, h3⟩⟩

/-- C10 witness: on `catC7`, Expand's key set is exactly E, X, X Recipe:
"X Recipe" is a generated node, X and E survive, and the recipe-named
entries are gone. -/
theorem C10_expand_keys_witness :
    (∃ ans, set_distinct_recipes catC7 = some ans ∧
      ans.map Prod.fst = ["E", "X Recipe", "X"]) ∧
    (("X Recipe" ∈ (["E", "X Recipe", "X"] : List String)) ↔
      ((("X Recipe" ∈ catC7.map Prod.fst ∧ containsRecipeCI "X Recipe" = false) ∨
       ∃ p, p ∈ catC7 ∧ containsRecipeCI p.1 = false ∧ p.2.recipe ≠ [] ∧
         p.2.recipe.any containsRecipeCI = true ∧ "X Recipe" = p.1 ++ " Recipe"))) := by
  refine ⟨⟨[("E", mkItem "E" 200 [] 0),
    ("X Recipe", { name := "X Recipe", image := recipeImageUrl, url := "",
                   cost := 290, recipe := [], order := 0 }),
    ("X", mkItem "X" 500 ["X Recipe", "Foo Recipe", "E"] 1)], by decide, by decide⟩, ?_⟩
  have h := C10_expand_keys catC7
    [("E", mkItem "E" 200 [] 0),
     ("X Recipe", { name := "X Recipe", image := recipeImageUrl, url := "",
                    cost := 290, recipe := [], order := 0 }),
     ("X", mkItem "X" 500 ["X Recipe", "Foo Recipe", "E"] 1)]
    (by decide) "X Recipe"
  simpa using h

lemma specOrderList_agree (items : Catalogue) (g1 g2 : Nat) :
    ∀ (l : List String),
      (∀ c ∈ l, ∀ v1 v2, specOrder items g1 c = some v1 →
        specOrder items g2 c = some v2 → v1 = v2) →
      ∀ vs1 vs2, specOrderList (specOrder items g1) l = some vs1 →
        specOrderList (specOrder items g2) l = some vs2 → vs1 = vs2 := by
  intro l
  induction l with
  | nil =>
    intro _ vs1 vs2 h1 h2
    simp only [specOrderList] at h1 h2
    injection h1 with h1
    injection h2 with h2
    rw [← h1, ← h2]
  | cons c rest ih =>
    intro hag vs1 vs2 h1 h2
    simp only [specOrderList] at h1 h2
    rcases hc1 : specOrder items g1 c with _ | v1 <;> rw [hc1] at h1
    · exact absurd h1 (by simp)
    rcases hr1 : specOrderList (specOrder items g1) rest with _ | vs1' <;> rw [hr1] at h1
    · exact absurd h1 (by simp)
    rcases hc2 : specOrder items g2 c with _ | v2 <;> rw [hc2] at h2
    · exact absurd h2 (by simp)
    rcases hr2 : specOrderList (specOrder items g2) rest with _ | vs2' <;> rw [hr2] at h2
    · exact absurd h2 (by simp)
    injection h1 with h1
    injection h2 with h2
    subst h1
    subst h2
    rw [hag c (List.mem_cons_self _ _) v1 v2 hc1 hc2,
      ih (fun c2 hc2m => hag c2 (List.mem_cons_of_mem _ hc2m)) vs1' vs2' hr1 hr2]

lemma specOrder_agree (items : Catalogue) :
    ∀ (f1 f2 : Nat) (name : String) (v1 v2 : Int),
      specOrder items f1 name = some v1 → specOrder items f2 name = some v2 →
      v1 = v2 := by
  intro f1
  induction f1 with
  | zero => intro f2 name v1 v2 h1; simp [specOrder] at h1
  | succ f1 ih =>
    intro f2 name v1 v2 h1 h2
    cases f2 with
    | zero => simp [specOrder] at h2
    | succ f2 =>
      simp only [specOrder] at h1 h2
      by_cases hend : pyEndsWith name "Recipe" = true
      · rw [if_pos hend] at h1 h2
        injection h1 with h1
        injection h2 with h2
        rw [← h1, ← h2]
      · rw [if_neg hend] at h1 h2
        rcases hlk : items.lookup name with _ | it <;> simp only [hlk] at h1 h2
        · exact absurd h1 (by simp)
        rcases hl1 : specOrderList (specOrder items f1) it.recipe with _ | vs1' <;>
          rw [hl1] at h1
        · exact absurd h1 (by simp)
        rcases hl2 : specOrderList (specOrder items f2) it.recipe with _ | vs2' <;>
          rw [hl2] at h2
        · exact absurd h2 (by simp)
        injection h1 with h1
        injection h2 with h2
        have := specOrderList_agree items f1 f2 it.recipe
          (fun c _ w1 w2 hw1 hw2 => ih f2 c w1 w2 hw1 hw2) vs1' vs2' hl1 hl2
        rw [← h1, ← h2, this]

lemma specOrderList_mem (g : String → Option Int) :
    ∀ (l : List String) (vs : List Int), specOrderList g l = some vs →
      ∀ c ∈ l, ∃ v, g c = some v ∧ v ∈ vs := by
  intro l
  induction l with
  | nil => intro vs _ c hc; cases hc
  | cons c0 rest ih =>
    intro vs h c hc
    simp only [specOrderList] at h
    rcases hc0 : g c0 with _ | v0 <;> rw [hc0] at h
    · exact absurd h (by simp)
    rcases hr : specOrderList g rest with _ | vs' <;> rw [hr] at h
    · exact absurd h (by simp)
    injection h with h
    subst h
    rcases List.mem_cons.mp hc with he | hm
    · subst he
      exact ⟨v0, hc0, List.mem_cons_self _ _⟩
    · rcases ih vs' hr c hm with ⟨v, hv, hvm⟩
      exact ⟨v, hv, List.mem_cons_of_mem _ hvm⟩

lemma foldl_max_bounds (xs : List Int) :
    ∀ y : Int, y ≤ xs.foldl max y ∧ ∀ v ∈ xs, v ≤ xs.foldl max y := by
  induction xs with
  | nil => intro y; exact ⟨le_refl _, fun v hv => absurd hv (List.not_mem_nil v)⟩
  | cons a xs ih =>
    intro y
    rcases ih (max y a) with ⟨h1, h2⟩
    refine ⟨le_trans (le_max_left y a) h1, ?_⟩
    intro v hv
    rcases List.mem_cons.mp hv with he | hm
    · subst he
      exact le_trans (le_max_right y v) h1
    · exact h2 v hm

lemma le_maxD (l : List Int) (v : Int) (h : v ∈ l) : v ≤ maxD l := by
  cases l with
  | nil => cases h
  | cons x xs =>
    simp only [maxD]
    rcases List.mem_cons.mp h with he | hm
    · subst he
      exact (foldl_max_bounds xs v).1
    · exact (foldl_max_bounds xs x).2 v hm

lemma mem_minsert (m : OrderMemo) (k : String) (v : Int) (p : String × Int)
    (h : p ∈ minsert m k v) : p = (k, v) ∨ p ∈ m := by
  induction m with
  | nil => simpa [minsert] using h
  | cons q rest ih =>
    obtain ⟨k0, v0⟩ := q
    simp only [minsert] at h
    by_cases hk : k0 = k
    · rw [if_pos hk] at h
      rcases List.mem_cons.mp h with he | hm
      · exact Or.inl (by rw [he, hk])
      · exact Or.inr (List.mem_cons_of_mem _ hm)
    · rw [if_neg hk] at h
      rcases List.mem_cons.mp h with he | hm
      · exact Or.inr (he ▸ List.mem_cons_self _ _)
      · rcases ih hm with h1 | h1
        · exact Or.inl h1
        · exact Or.inr (List.mem_cons_of_mem _ h1)

lemma getOrderList_spec (items : Catalogue) (fuel : Nat)
    (IH : ∀ (name : String) (memo : OrderMemo) (v : Int),
      specOrder items fuel name = some v →
      (∀ p ∈ memo, ∃ f0, specOrder items f0 p.1 = some p.2) →
      ∃ memo2, get_order items fuel name memo = some (v, memo2) ∧
        (∀ p ∈ memo2, ∃ f0, specOrder items f0 p.1 = some p.2)) :
    ∀ (l : List String) (memo : OrderMemo) (vs : List Int),
      specOrderList (specOrder items fuel) l = some vs →
      (∀ p ∈ memo, ∃ f0, specOrder items f0 p.1 = some p.2) →
      ∃ memo2, getOrderList (get_order items fuel) l memo = some (vs, memo2) ∧
        (∀ p ∈ memo2, ∃ f0, specOrder items f0 p.1 = some p.2) := by
  intro l
  induction l with
  | nil =>
    intro memo vs h hinv
    simp only [specOrderList] at h
    injection h with h
    subst h
    exact ⟨memo, rfl, hinv⟩
  | cons c rest ih =>
    intro memo vs h hinv
    simp only [specOrderList] at h
    rcases hc : specOrder items fuel c with _ | v <;> rw [hc] at h
    · exact absurd h (by simp)
    rcases hr : specOrderList (specOrder items fuel) rest with _ | vs' <;> rw [hr] at h
    · exact absurd h (by simp)
    injection h with h
    subst h
    rcases IH c memo v hc hinv with ⟨memo1, hg, hinv1⟩
    rcases ih memo1 vs' hr hinv1 with ⟨memo2, hgl, hinv2⟩
    refine ⟨memo2, ?_, hinv2⟩
    simp only [getOrderList, hg, hgl]

lemma get_order_spec (items : Catalogue) :
    ∀ (fuel : Nat) (name : String) (memo : OrderMemo) (v : Int),
      specOrder items fuel name = some v →
      (∀ p ∈ memo, ∃ f0, specOrder items f0 p.1 = some p.2) →
      ∃ memo2, get_order items fuel name memo = some (v, memo2) ∧
        (∀ p ∈ memo2, ∃ f0, specOrder items f0 p.1 = some p.2) := by
  intro fuel
  induction fuel with
  | zero => intro name memo v h; simp [specOrder] at h
  | succ fuel ih =>
    intro name memo v h hinv
    simp only [specOrder] at h
    by_cases hend : pyEndsWith name "Recipe" = true
    · rw [if_pos hend] at h
      injection h with h
      subst h
      exact ⟨memo, by simp [get_order, hend], hinv⟩
    · rw [if_neg hend] at h
      rcases hml : memo.lookup name with _ | v0
      · rcases hlk : items.lookup name with _ | it <;> simp only [hlk] at h
        · exact absurd h (by simp)
        rcases hls : specOrderList (specOrder items fuel) it.recipe with _ | vs <;>
          rw [hls] at h
        · exact absurd h (by simp)
        injection h with h
        rcases getOrderList_spec items fuel ih it.recipe memo vs hls hinv
          with ⟨memo2, hgl, hinv2⟩
        refine ⟨minsert memo2 name (maxD vs + 1), ?_, ?_⟩
        · rw [← h]
          simp [get_order, hend, hml, hlk, hgl]
        · intro p hp
          rcases mem_minsert memo2 name (maxD vs + 1) p hp with he | hm
          · subst he
            exact ⟨fuel + 1, by simp [specOrder, hend, hlk, hls]⟩
          · exact hinv2 p hm
      · have hmem : (name, v0) ∈ memo := lookup_mem _ _ _ hml
        rcases hinv _ hmem with ⟨f0, hf0⟩
        have hv : v0 = v := by
          refine specOrder_agree items f0 (fuel + 1) name v0 v hf0 ?_
          simp only [specOrder, hend, ite_false]
          exact h
        refine ⟨memo, ?_, hinv⟩
        simp [get_order, hend, hml, hv]

lemma setOrdersGo_spec (items : Catalogue) (F : Nat) :
    ∀ (l : List (String × DotaItem)) (memo : OrderMemo),
      (∀ p ∈ l, (specOrder items F p.1).isSome = true) →
      (∀ p ∈ memo, ∃ f0, specOrder items f0 p.1 = some p.2) →
      ∃ ansl, setOrdersGo items F l memo = some ansl ∧
        ∀ q ∈ ansl, ∃ p, p ∈ l ∧ q.1 = p.1 ∧ q.2.recipe = p.2.recipe ∧
          specOrder items F q.1 = some q.2.order := by
  intro l
  induction l with
  | nil =>
    intro memo _ _
    exact ⟨[], rfl, fun q hq => absurd hq (List.not_mem_nil q)⟩
  | cons p0 rest ih =>
    intro memo hall hinv
    obtain ⟨n0, it0⟩ := p0
    have h0 := hall (n0, it0) (List.mem_cons_self _ _)
    rcases Option.isSome_iff_exists.mp h0 with ⟨v, hv⟩
    rcases get_order_spec items F n0 memo v hv hinv with ⟨memo2, hg, hinv2⟩
    rcases ih memo2 (fun p hp => hall p (List.mem_cons_of_mem _ hp)) hinv2
      with ⟨tailAns, ht, hq⟩
    refine ⟨(n0, { it0 with order := v }) :: tailAns, ?_, ?_⟩
    · simp only [setOrdersGo, hg, ht]
    · intro q hqm
      rcases List.mem_cons.mp hqm with he | hm
      · subst he
        exact ⟨(n0, it0), List.mem_cons_self _ _, rfl, rfl, hv⟩
      · rcases hq q hm with ⟨p, hp, h1, h2, h3⟩
        exact ⟨p, List.mem_cons_of_mem _ hp, h1, h2, h3⟩

/-- C6 counterexample: the claim's final clause ("order of a
leaf-or-'Recipe'-placeholder is 0") is false for leaves: on the one-leaf
catalogue, `set_orders` assigns the leaf item B order 1
(`max([], default=0) + 1`), not 0. -/
theorem C6_orders_counterexample :
    set_orders catLeaf 3 = some [("B", mkItem "B" 300 [] 1)] ∧
    (set_orders catLeaf 3).map (fun c => (c.lookup "B").map DotaItem.order) =
      some (some 1) ∧
    some (some (1 : Int)) ≠ some (some (0 : Int)) :=
  ⟨by decide, by decide, by decide⟩

/-- C6 amended: for every catalogue with unique keys on which the spec's
recursive order definition terminates (in particular an acyclic catalogue
whose every component name ends in "Recipe" or names a catalogue item),
`set_orders` assigns exactly the spec orders: a name ending in the literal
"Recipe" gets order 0 without being recursed into, an item with an empty
recipe gets order 1, every other item gets `1 + max` of its components'
orders, and consequently `order(item) > order(c)` for every component `c`
of its recipe; leaf items get order 1, only "Recipe"-suffixed names get 0. -/
theorem C6_orders_amended (cat : Catalogue) (F : Nat)
    (hnd : (cat.map Prod.fst).Nodup)
    (hall : ∀ p ∈ cat, (specOrder cat F p.1).isSome = true) :
    ∃ cat', set_orders cat F = some cat' ∧
      ∀ q ∈ cat', specOrder cat F q.1 = some q.2.order ∧
        (pyEndsWith q.1 "Recipe" = true → q.2.order = 0) ∧
        (pyEndsWith q.1 "Recipe" = false → q.2.recipe = [] → q.2.order = 1) ∧
        (pyEndsWith q.1 "Recipe" = false →
          ∀ c ∈ q.2.recipe, ∀ vc f0, specOrder cat f0 c = some vc →
            vc < q.2.order) := by
  rcases setOrdersGo_spec cat F cat [] hall (fun p hp => absurd hp (List.not_mem_nil p))
    with ⟨cat', hgo, hq⟩
  refine ⟨cat', hgo, ?_⟩
  intro q hqm
  rcases hq q hqm with ⟨p, hp, h1, h2, h3⟩
  have hF : ∃ F0, F = F0 + 1 := by
    cases F with
    | zero => simp [specOrder] at h3
    | succ F0 => exact ⟨F0, rfl⟩
  rcases hF with ⟨F0, rfl⟩
  refine ⟨h3, ?_, ?_, ?_⟩
  · intro hend
    simp only [specOrder, hend, ite_true] at h3
    injection h3 with h3
    exact h3.symm
  · intro hend hrec
    simp only [specOrder, hend, ite_false] at h3
    have hlkp : cat.lookup q.1 = some p.2 := h1 ▸ mem_lookup_nodup cat p.1 p.2 hnd hp
    simp only [hlkp, ← h2, hrec, specOrderList] at h3
    injection h3 with h3
    simp [maxD] at h3
    omega
  · intro hend c hc vc f0 hvc
    simp only [specOrder, hend, ite_false] at h3
    have hlkp : cat.lookup q.1 = some p.2 := h1 ▸ mem_lookup_nodup cat p.1 p.2 hnd hp
    simp only [hlkp] at h3
    rcases hls : specOrderList (specOrder cat F0) p.2.recipe with _ | vs <;>
      rw [hls] at h3
    · exact absurd h3 (by simp)
    injection h3 with h3
    have hc2 : c ∈ p.2.recipe := h2 ▸ hc
    rcases specOrderList_mem (specOrder cat F0) p.2.recipe vs hls c hc2 with ⟨v1, hv1, hv1m⟩
    have heq : vc = v1 := specOrder_agree cat f0 F0 c vc v1 hvc hv1
    have hle : v1 ≤ maxD vs := le_maxD vs v1 hv1m
    omega

/-- C6 witness: on the A/B/C catalogue the spec recursion terminates and
`set_orders` assigns order(A) = 2, order(B) = order(C) = 1 — the concrete
scenario of the claim. -/
theorem C6_orders_witness :
    (catABC.map Prod.fst).Nodup ∧
    (∀ p ∈ catABC, (specOrder catABC 3 p.1).isSome = true) ∧
    (∃ cat', set_orders catABC 3 = some cat' ∧
      ∀ q ∈ cat', specOrder catABC 3 q.1 = some q.2.order ∧
        (pyEndsWith q.1 "Recipe" = true → q.2.order = 0) ∧
        (pyEndsWith q.1 "Recipe" = false → q.2.recipe = [] → q.2.order = 1) ∧
        (pyEndsWith q.1 "Recipe" = false →
          ∀ c ∈ q.2.recipe, ∀ vc f0, specOrder catABC f0 c = some vc →
            vc < q.2.order)) ∧
    set_orders catABC 3 = some
      [("A", mkItem "A" 1000 ["B", "B", "C"] 2),
       ("B", mkItem "B" 300 [] 1), ("C", mkItem "C" 400 [] 1)] :=
  ⟨by decide, by decide,
    C6_orders_amended catABC 3 (by decide) (by decide), by decide⟩

lemma objectsSP_nil (s p : Node) : objectsSP [] s p = [] := rfl

lemma objectsSP_cons (t : Triple) (g : RGraph) (s p : Node) :
    objectsSP (t :: g) s p =
      (if t.1 = s ∧ t.2.1 = p then [t.2.2] else []) ++ objectsSP g s p := by
  simp only [objectsSP, List.filter_cons]
  by_cases h : t.1 = s ∧ t.2.1 = p
  · simp [h]
  · simp [h]

lemma objectsSP_append (g1 g2 : RGraph) (s p : Node) :
    objectsSP (g1 ++ g2) s p = objectsSP g1 s p ++ objectsSP g2 s p := by
  simp [objectsSP, List.filter_append]

lemma freshComps_sub : ∀ (l p : List String) (c : String), c ∈ freshComps l p → c ∈ l := by
  intro l
  induction l with
  | nil => intro p c h; cases h
  | cons c0 rest ih =>
    intro p c h
    simp only [freshComps] at h
    by_cases h0 : c0 ∈ p
    · rw [if_pos h0] at h
      exact List.mem_cons_of_mem _ (ih _ _ h)
    · rw [if_neg h0] at h
      rcases List.mem_cons.mp h with he | hm
      · exact he ▸ List.mem_cons_self _ _
      · exact List.mem_cons_of_mem _ (ih _ _ hm)

lemma freshComps_fresh : ∀ (l p : List String) (c : String), c ∈ freshComps l p → c ∉ p := by
  intro l
  induction l with
  | nil => intro p c h; cases h
  | cons c0 rest ih =>
    intro p c h
    simp only [freshComps] at h
    by_cases h0 : c0 ∈ p
    · rw [if_pos h0] at h
      exact ih _ _ h
    · rw [if_neg h0] at h
      rcases List.mem_cons.mp h with he | hm
      · exact he ▸ h0
      · intro hcp
        exact ih _ _ hm (List.mem_append_left _ hcp)

lemma freshComps_nodup : ∀ (l p : List String), (freshComps l p).Nodup := by
  intro l
  induction l with
  | nil => intro p; exact List.nodup_nil
  | cons c0 rest ih =>
    intro p
    simp only [freshComps]
    by_cases h0 : c0 ∈ p
    · rw [if_pos h0]
      exact ih _
    · rw [if_neg h0]
      refine List.nodup_cons.mpr ⟨?_, ih _⟩
      intro hm
      exact freshComps_fresh rest (p ++ [c0]) c0 hm (List.mem_append_right _ (by simp))

lemma freshComps_mem : ∀ (l p : List String) (c : String), c ∈ l → c ∉ p →
    c ∈ freshComps l p := by
  intro l
  induction l with
  | nil => intro p c h; cases h
  | cons c0 rest ih =>
    intro p c h hcp
    simp only [freshComps]
    rcases List.mem_cons.mp h with he | hm
    · subst he
      rw [if_neg hcp]
      exact List.mem_cons_self _ _
    · by_cases h0 : c0 ∈ p
      · rw [if_pos h0]
        exact ih _ _ hm hcp
      · rw [if_neg h0]
        by_cases hcc : c = c0
        · exact hcc ▸ List.mem_cons_self _ _
        · refine List.mem_cons_of_mem _ (ih _ _ hm ?_)
          intro hx
          rcases List.mem_append.mp hx with hx | hx
          · exact hcp hx
          · exact hcc (List.mem_singleton.mp hx)

lemma bsg_objects (recipe : List String) (su : Node)
    (hInj : ∀ c1 ∈ recipe, ∀ c2 ∈ recipe,
      normalize_name c1 = normalize_name c2 → c1 = c2) :
    ∀ (l processed : List String),
      (∀ c ∈ l, c ∈ recipe) → (∀ c ∈ processed, c ∈ recipe) →
      objectsSP (buildSlotsGo recipe su l (processed.map normalize_name)) su hasSlotP =
        (freshComps l processed).map (slotRef recipe) := by
  intro l
  induction l with
  | nil => intro processed _ _; simp [buildSlotsGo, freshComps, objectsSP_nil]
  | cons c rest ih =>
    intro processed hl hp
    have hlr := fun c2 h2 => hl c2 (List.mem_cons_of_mem _ h2)
    have hcr : c ∈ recipe := hl c (List.mem_cons_self _ _)
    simp only [buildSlotsGo, freshComps]
    by_cases hcp : c ∈ processed
    · rw [if_pos (List.mem_map_of_mem _ hcp), if_pos hcp]
      exact ih processed hlr hp
    · have hnu : normalize_name c ∉ processed.map normalize_name := by
        intro hx
        rcases List.mem_map.mp hx with ⟨c2, hc2, he⟩
        exact hcp ((hInj c2 (hp c2 hc2) c hcr he) ▸ hc2)
      rw [if_neg hnu, if_neg hcp]
      have hp2 : ∀ c2 ∈ processed ++ [c], c2 ∈ recipe := by
        intro c2 h2
        rcases List.mem_append.mp h2 with h2 | h2
        · exact hp c2 h2
        · exact (List.mem_singleton.mp h2) ▸ hcr
      have ihr := ih (processed ++ [c]) hlr hp2
      simp only [List.map_append, List.map_cons, List.map_nil] at ihr
      have hne1 : ¬(rdfTypeP = hasSlotP) := by decide
      have hne2 : ¬(hasItemP = hasSlotP) := by decide
      have hne3 : ¬(quantityP = hasSlotP) := by decide
      by_cases hq : recipe.count c = 1
      · rw [if_pos hq]
        rw [objectsSP_append, objectsSP_cons, objectsSP_nil]
        rw [if_pos ⟨rfl, rfl⟩]
        simp only [List.map_cons, ihr]
        simp [slotRef, hq]
      · rw [if_neg hq]
        rw [objectsSP_append, objectsSP_cons, objectsSP_cons, objectsSP_cons,
          objectsSP_cons, objectsSP_nil]
        rw [if_neg (fun h => hne1 h.2), if_neg (fun h => hne2 h.2),
          if_neg (fun h => hne3 h.2), if_pos ⟨rfl, rfl⟩]
        simp only [List.map_cons, ihr]
        simp [slotRef, hq]

lemma bsg_quantity (recipe : List String) (su : Node) :
    ∀ (l used : List String) (s q : Node),
      (s, quantityP, q) ∈ buildSlotsGo recipe su l used →
      ∃ c ∈ l, ¬(recipe.count c = 1) ∧ s = slotRef recipe c ∧
        q = Node.lit (recipe.count c) := by
  intro l
  induction l with
  | nil => intro used s q h; cases h
  | cons c rest ih =>
    intro used s q h
    simp only [buildSlotsGo] at h
    by_cases hcu : normalize_name c ∈ used
    · rw [if_pos hcu] at h
      rcases ih _ _ _ h with ⟨c2, hc2, hx⟩
      exact ⟨c2, List.mem_cons_of_mem _ hc2, hx⟩
    · rw [if_neg hcu] at h
      rcases List.mem_append.mp h with hm | hm
      · by_cases hq : recipe.count c = 1
        · rw [if_pos hq] at hm
          rcases List.mem_singleton.mp hm with he
          injection he with h1 h2
          injection h2 with h2
          exact absurd h2.symm (by decide)
        · rw [if_neg hq] at hm
          rcases List.mem_cons.mp hm with he | hm
          · injection he with h1 h2
            injection h2 with h2
            exact absurd h2.symm (by decide)
          rcases List.mem_cons.mp hm with he | hm
          · injection he with h1 h2
            injection h2 with h2
            exact absurd h2.symm (by decide)
          rcases List.mem_cons.mp hm with he | hm
          · injection he with h1 h2
            injection h2 with h2a h2b
            refine ⟨c, List.mem_cons_self _ _, hq, ?_, h2b⟩
            rw [h1]
            simp [slotRef, hq]
          rcases List.mem_singleton.mp hm with he
          · injection he with h1 h2
            injection h2 with h2
            exact absurd h2.symm (by decide)
      · rcases ih _ _ _ hm with ⟨c2, hc2, hx⟩
        exact ⟨c2, List.mem_cons_of_mem _ hc2, hx⟩

lemma bsg_mem_qty (recipe : List String) (su : Node)
    (hInj : ∀ c1 ∈ recipe, ∀ c2 ∈ recipe,
      normalize_name c1 = normalize_name c2 → c1 = c2) :
    ∀ (l processed : List String) (c : String),
      (∀ c2 ∈ l, c2 ∈ recipe) → (∀ c2 ∈ processed, c2 ∈ recipe) →
      c ∈ l → c ∉ processed → ¬(recipe.count c = 1) →
      (slotRef recipe c, rdfTypeP, KGuri "BuildSchemaSlot") ∈
          buildSlotsGo recipe su l (processed.map normalize_name) ∧
      (slotRef recipe c, hasItemP, KGuri (normalize_name c)) ∈
          buildSlotsGo recipe su l (processed.map normalize_name) ∧
      (slotRef recipe c, quantityP, Node.lit (recipe.count c)) ∈
          buildSlotsGo recipe su l (processed.map normalize_name) := by
  intro l
  induction l with
  | nil => intro processed c _ _ h; cases h
  | cons c0 rest ih =>
    intro processed c hl hp hm hcp hq
    have hlr := fun c2 h2 => hl c2 (List.mem_cons_of_mem _ h2)
    have hc0r : c0 ∈ recipe := hl c0 (List.mem_cons_self _ _)
    simp only [buildSlotsGo]
    by_cases hc0p : c0 ∈ processed
    · rw [if_pos (List.mem_map_of_mem _ hc0p)]
      have hm2 : c ∈ rest := by
        rcases List.mem_cons.mp hm with he | h2
        · exact absurd (he ▸ hc0p) hcp
        · exact h2
      exact ih processed c hlr hp hm2 hcp hq
    · have hnu : normalize_name c0 ∉ processed.map normalize_name := by
        intro hx
        rcases List.mem_map.mp hx with ⟨c2, hc2, he⟩
        exact hc0p ((hInj c2 (hp c2 hc2) c0 hc0r he) ▸ hc2)
      rw [if_neg hnu]
      have hp2 : ∀ c2 ∈ processed ++ [c0], c2 ∈ recipe := by
        intro c2 h2
        rcases List.mem_append.mp h2 with h2 | h2
        · exact hp c2 h2
        · exact (List.mem_singleton.mp h2) ▸ hc0r
      by_cases hcc : c = c0
      · subst hcc
        rw [if_neg hq]
        have hsr : slotRef recipe c =
            KGuri (normalize_name c ++ "_" ++ toString (recipe.count c) ++ "x") := by
          simp [slotRef, hq]
        refine ⟨?_, ?_, ?_⟩
        · exact List.mem_append_left _ (by rw [hsr]; exact List.mem_cons_self _ _)
        · refine List.mem_append_left _ ?_
          rw [hsr]
          exact List.mem_cons_of_mem _ (List.mem_cons_self _ _)
        · refine List.mem_append_left _ ?_
          rw [hsr]
          exact List.mem_cons_of_mem _ (List.mem_cons_of_mem _ (List.mem_cons_self _ _))
      · have hm2 : c ∈ rest := by
          rcases List.mem_cons.mp hm with he | h2
          · exact absurd he hcc
          · exact h2
        have hcp2 : c ∉ processed ++ [c0] := by
          intro hx
          rcases List.mem_append.mp hx with hx | hx
          · exact hcp hx
          · exact hcc (List.mem_singleton.mp hx)
        have ihr := ih (processed ++ [c0]) c hlr hp2 hm2 hcp2 hq
        rw [List.map_append] at ihr
        refine ⟨List.mem_append_right _ ihr.1, List.mem_append_right _ ihr.2.1,
          List.mem_append_right _ ihr.2.2⟩

lemma build_dota_item_eq (item : DotaItem) (hrec : item.recipe ≠ []) :
    build_dota_item item =
      [(KGuri (normalize_name item.name), rdfTypeP, KGuri "DotaItem"),
       (KGuri (normalize_name item.name), costP, Node.lit item.cost),
       (KGuri (normalize_name item.name ++ "_BS"), rdfTypeP, KGuri "BuildSchema"),
       (KGuri (normalize_name item.name), hasBuildSchemaP,
         KGuri (normalize_name item.name ++ "_BS"))] ++
      buildSlotsGo item.recipe (KGuri (normalize_name item.name ++ "_BS"))
        item.recipe [] := by
  simp [build_dota_item, hrec]

/-- C8: counterexample to the claim as stated.  The claim promises one
`hasSlot` edge per distinct recipe component, but the code deduplicates by
normalised name while the components themselves are raw strings: the item
`itemClash` has two distinct components "A B" and "A_B" (so two distinct
multiset elements, each of multiplicity 1), yet `build_dota_item` emits a
single `hasSlot` edge for its build schema. -/
theorem C8_slots_counterexample :
    itemClash.recipe.dedup.length = 2 ∧
    (objectsSP (build_dota_item itemClash)
      (KGuri (normalize_name itemClash.name ++ "_BS")) hasSlotP) =
      [KGuri "A_B"] := by decide

/-- C8: amended.  For a DotaItem with a non-empty recipe whose components
have pairwise distinct normalised names (and pairwise distinct slot
references), `build_dota_item` emits exactly one `hasSlot` edge per distinct
recipe component, in first-occurrence order and without duplicates; a
component of multiplicity 1 is linked directly by its normalised identifier
and carries no quantity triple, and a component of multiplicity m >= 2 is
linked through the synthesised slot "{component}_{m}x", which carries a
`BuildSchemaSlot` type triple, a `hasItem` edge to the component, and a
`quantity` triple equal to m. -/
theorem C8_slots_amended (item : DotaItem)
    (hrec : item.recipe ≠ [])
    (hInj : ∀ c1 ∈ item.recipe, ∀ c2 ∈ item.recipe,
      normalize_name c1 = normalize_name c2 → c1 = c2)
    (hRef : ∀ c1 ∈ item.recipe, ∀ c2 ∈ item.recipe,
      slotRef item.recipe c1 = slotRef item.recipe c2 → c1 = c2) :
    objectsSP (build_dota_item item)
        (KGuri (normalize_name item.name ++ "_BS")) hasSlotP =
      (freshComps item.recipe []).map (slotRef item.recipe) ∧
    (objectsSP (build_dota_item item)
        (KGuri (normalize_name item.name ++ "_BS")) hasSlotP).Nodup ∧
    ∀ c ∈ item.recipe,
      slotRef item.recipe c ∈
        objectsSP (build_dota_item item)
          (KGuri (normalize_name item.name ++ "_BS")) hasSlotP ∧
      (item.recipe.count c = 1 →
        slotRef item.recipe c = KGuri (normalize_name c) ∧
        ∀ q : Node, (KGuri (normalize_name c), quantityP, q) ∉ build_dota_item item) ∧
      (¬(item.recipe.count c = 1) →
        slotRef item.recipe c =
          KGuri (normalize_name c ++ "_" ++ toString (item.recipe.count c) ++ "x") ∧
        (slotRef item.recipe c, rdfTypeP, KGuri "BuildSchemaSlot") ∈
          build_dota_item item ∧
        (slotRef item.recipe c, hasItemP, KGuri (normalize_name c)) ∈
          build_dota_item item ∧
        (slotRef item.recipe c, quantityP, Node.lit (item.recipe.count c)) ∈
          build_dota_item item) := by
  have heq := build_dota_item_eq item hrec
  have hne1 : ¬(rdfTypeP = hasSlotP) := by decide
  have hne2 : ¬(costP = hasSlotP) := by decide
  have hne3 : ¬(hasBuildSchemaP = hasSlotP) := by decide
  have hmain := bsg_objects item.recipe (KGuri (normalize_name item.name ++ "_BS"))
    hInj item.recipe [] (fun c h => h) (fun c h => absurd h (List.not_mem_nil c))
  simp only [List.map_nil] at hmain
  have hobj : objectsSP (build_dota_item item)
      (KGuri (normalize_name item.name ++ "_BS")) hasSlotP =
      (freshComps item.recipe []).map (slotRef item.recipe) := by
    rw [heq, objectsSP_append, objectsSP_cons, objectsSP_cons, objectsSP_cons,
      objectsSP_cons, objectsSP_nil]
    rw [if_neg (fun h => hne1 h.2), if_neg (fun h => hne2 h.2),
      if_neg (fun h => hne1 h.2), if_neg (fun h => hne3 h.2)]
    simpa using hmain
  refine ⟨hobj, ?_, ?_⟩
  · rw [hobj]
    refine (freshComps_nodup item.recipe []).map_on ?_
    intro x hx y hy hxy
    exact hRef x (freshComps_sub _ _ _ hx) y (freshComps_sub _ _ _ hy) hxy
  · intro c hc
    refine ⟨?_, ?_, ?_⟩
    · rw [hobj]
      exact List.mem_map_of_mem _ (freshComps_mem item.recipe [] c hc
        (List.not_mem_nil c))
    · intro h1
      have hsr : slotRef item.recipe c = KGuri (normalize_name c) := by
        simp [slotRef, h1]
      refine ⟨hsr, ?_⟩
      intro q hq
      have hnq1 : ¬(quantityP = rdfTypeP) := by decide
      have hnq2 : ¬(quantityP = costP) := by decide
      have hnq3 : ¬(quantityP = hasBuildSchemaP) := by decide
      rw [heq] at hq
      rcases List.mem_append.mp hq with hm | hm
      · rcases List.mem_cons.mp hm with he | hm
        · injection he with e1 e2; injection e2 with e2a e2b; exact hnq1 e2a
        rcases List.mem_cons.mp hm with he | hm
        · injection he with e1 e2; injection e2 with e2a e2b; exact hnq2 e2a
        rcases List.mem_cons.mp hm with he | hm
        · injection he with e1 e2; injection e2 with e2a e2b; exact hnq1 e2a
        rcases List.mem_singleton.mp hm with he
        · injection he with e1 e2; injection e2 with e2a e2b; exact hnq3 e2a
      · rcases bsg_quantity item.recipe _ _ _ _ _ hm with ⟨c2, hc2, hcnt2, hs, _⟩
        have : slotRef item.recipe c = slotRef item.recipe c2 := by
          rw [hsr, hs]
        exact hcnt2 ((hRef c hc c2 hc2 this) ▸ h1)
    · intro h1
      have hsr : slotRef item.recipe c =
          KGuri (normalize_name c ++ "_" ++ toString (item.recipe.count c) ++ "x") := by
        simp [slotRef, h1]
      have hm := bsg_mem_qty item.recipe (KGuri (normalize_name item.name ++ "_BS"))
        hInj item.recipe [] c (fun c2 h2 => h2)
        (fun c2 h2 => absurd h2 (List.not_mem_nil c2)) hc (List.not_mem_nil c) h1
      simp only [List.map_nil] at hm
      refine ⟨hsr, ?_, ?_, ?_⟩
      · rw [heq]; exact List.mem_append_right _ hm.1
      · rw [heq]; exact List.mem_append_right _ hm.2.1
      · rw [heq]; exact List.mem_append_right _ hm.2.2

/-- C8: witness for the amended theorem at the concrete item A with recipe
[B, B, C]: the schema carries exactly the slots B_2x and C, in that order. -/
theorem C8_slots_witness :
    objectsSP (build_dota_item (mkItem "A" 1000 ["B", "B", "C"] 0))
        (KGuri (normalize_name (mkItem "A" 1000 ["B", "B", "C"] 0).name ++ "_BS"))
        hasSlotP =
      (freshComps (mkItem "A" 1000 ["B", "B", "C"] 0).recipe []).map
        (slotRef (mkItem "A" 1000 ["B", "B", "C"] 0).recipe) ∧
    (freshComps (mkItem "A" 1000 ["B", "B", "C"] 0).recipe []).map
        (slotRef (mkItem "A" 1000 ["B", "B", "C"] 0).recipe) =
      [KGuri "B_2x", KGuri "C"] :=
  ⟨(C8_slots_amended (mkItem "A" 1000 ["B", "B", "C"] 0)
      (by decide) (by decide) (by decide)).1,
   by decide⟩
